import Mathlib

/-!
# A shallow embedding of `jsonserializable` (src/jsonserializable.py)

The library is a runtime type layer over Python: type descriptors (the four
primitive classes, bound container classes `List[E]` / `Dict[E]`, `Object`
subclasses and `Enum` subclasses) and runtime values (primitives, container
instances, object instances, enum members, `None`, and plain `list`/`dict`
data).  Python is untyped, so we embed both descriptors and values into one
inductive type `U`; the dispatch functions `schema` / `serialize` /
`deserialize` and all the class methods become total Lean functions on `U`
returning `Except PyErr U` where the Python code can raise.

Representation choices:
* Python `int` is `Int`, `float` is modelled as `Rat` (floats are only carried
  through, never computed with), `bool` is `Bool`, `str` is `String`.
* a `plist oE lvl xs` is a Python list object: `oE = none` is the builtin
  `list`, `oE = some E` an instance of the bound class `List[E]`; `lvl` is the
  extra derivation level below the bound class (`0` for `List[E]` itself,
  `1` for a user subclass such as `class IntList(List[int])`).  `pdict` is the
  same for `dict` / `Dict[E]`.
* a `pobj ty vals` is an instance of the `Object` subclass described by `ty`
  (a `tobj`), with its `__dict__` as an association list in attribute
  declaration order; `pmember ety nm v` is the `EnumMember` with owning class
  `ety` (a `tenum`), name `nm` and wrapped value `v`.
* class identity: the library canonicalizes bound containers
  (`ContainerMeta.__getitem__` caches the bound subclass), so structural
  equality of descriptors models Python class identity.
-/

/-- The error classes raised by the library (`TypeError`, `AttributeError`,
`KeyError`, `ValueError`, `IndexError`) and the collaborator's
`jsonschema.ValidationError`. -/
inductive PyErr where
  | typeError
  | attributeError
  | keyError
  | valueError
  | indexError
  | validationError
  deriving DecidableEq, Repr

/-- Sequencing of fallible Python steps: an exception short-circuits, a normal
result feeds the continuation — the exception-propagation semantics of the
embedded code. -/
def exbind {α β : Type} (r : Except PyErr α) (f : α → Except PyErr β) : Except PyErr β :=
  match r with
  | .ok a => f a
  | .error e => .error e

@[simp]
theorem exbind_ok {α β : Type} (a : α) (f : α → Except PyErr β) : exbind (.ok a) f = f a := rfl

@[simp]
theorem exbind_error {α β : Type} (e : PyErr) (f : α → Except PyErr β) :
    exbind (.error e) f = .error e := rfl

/-- The universe of the embedding: Python type descriptors (`t…`) and runtime
values (`p…`).  See the module comment for the reading of each constructor. -/
inductive U where
  | tint
  | tfloat
  | tbool
  | tstr
  | tlist (elem : U)
  | tdict (elem : U)
  | tobj (name : String) (attrs : List (String × U × Bool))
  | tenum (name : String) (members : List (String × U))
  | pnone
  | pbool (b : Bool)
  | pint (n : Int)
  | pfloat (q : Rat)
  | pstr (s : String)
  | plist (elemT : Option U) (lvl : Nat) (elems : List U)
  | pdict (elemT : Option U) (lvl : Nat) (entries : List (U × U))
  | pobj (ty : U) (vals : List (String × U))
  | pmember (ety : U) (name : String) (value : U)

namespace U

/-- Look up a string key in an association list (a Python `__dict__` or a
keyword-argument mapping), returning the first binding. -/
def lookupStr (n : String) : List (String × U) → Option U
  | [] => none
  | (k, v) :: rest => if k = n then some v else lookupStr n rest

/-- Look up an attribute name in an `Object` declaration
(`cls._object_attributes`), returning its `(type, optional)` pair. -/
def lookupAttr (n : String) : List (String × U × Bool) → Option (U × Bool)
  | [] => none
  | (k, ty, opt) :: rest => if k = n then some (ty, opt) else lookupAttr n rest

theorem sizeOf_lookupStr {n : String} :
    ∀ {vs : List (String × U)} {v : U}, lookupStr n vs = some v → sizeOf v < sizeOf vs := by
  intro vs
  induction vs with
  | nil => intro v h; simp [lookupStr] at h
  | cons hd tl ih =>
    intro v h
    obtain ⟨k, w⟩ := hd
    simp only [lookupStr] at h
    by_cases hk : k = n
    · simp only [hk, if_pos rfl] at h
      cases h
      simp
      omega
    · simp only [if_neg hk] at h
      have := ih h
      simp
      omega

theorem sizeOf_lookupAttr {n : String} :
    ∀ {attrs : List (String × U × Bool)} {ty : U} {opt : Bool},
      lookupAttr n attrs = some (ty, opt) → sizeOf ty < sizeOf attrs := by
  intro attrs
  induction attrs with
  | nil => intro ty opt h; simp [lookupAttr] at h
  | cons hd tl ih =>
    intro ty opt h
    obtain ⟨k, ty0, opt0⟩ := hd
    simp only [lookupAttr] at h
    by_cases hk : k = n
    · simp only [hk, if_pos rfl] at h
      cases h
      simp
      omega
    · simp only [if_neg hk] at h
      have := ih h
      simp
      omega

theorem sizeOf_pos (x : U) : 0 < sizeOf x := by
  cases x <;> simp <;> omega

mutual
/-- Structural equality of embedded Python objects.  On type descriptors this
models Python class identity (sound because the library canonicalizes bound
container classes); on values it is plain structural equality of the
representation. -/
def ueq : U → U → Bool
  | tint, tint => true
  | tfloat, tfloat => true
  | tbool, tbool => true
  | tstr, tstr => true
  | tlist a, tlist b => ueq a b
  | tdict a, tdict b => ueq a b
  | tobj n1 a1, tobj n2 a2 => n1 == n2 && ueqAttrs a1 a2
  | tenum n1 m1, tenum n2 m2 => n1 == n2 && ueqNamed m1 m2
  | pnone, pnone => true
  | pbool a, pbool b => a == b
  | pint a, pint b => a == b
  | pfloat a, pfloat b => a == b
  | pstr a, pstr b => a == b
  | plist o1 l1 e1, plist o2 l2 e2 => ueqOpt o1 o2 && l1 == l2 && ueqList e1 e2
  | pdict o1 l1 e1, pdict o2 l2 e2 => ueqOpt o1 o2 && l1 == l2 && ueqPairs e1 e2
  | pobj t1 v1, pobj t2 v2 => ueq t1 t2 && ueqNamed v1 v2
  | pmember e1 n1 v1, pmember e2 n2 v2 => ueq e1 e2 && n1 == n2 && ueq v1 v2
  | _, _ => false

def ueqOpt : Option U → Option U → Bool
  | none, none => true
  | some a, some b => ueq a b
  | _, _ => false

def ueqList : List U → List U → Bool
  | [], [] => true
  | a :: as1, b :: bs => ueq a b && ueqList as1 bs
  | _, _ => false

def ueqPairs : List (U × U) → List (U × U) → Bool
  | [], [] => true
  | (k1, v1) :: r1, (k2, v2) :: r2 => ueq k1 k2 && ueq v1 v2 && ueqPairs r1 r2
  | _, _ => false

def ueqNamed : List (String × U) → List (String × U) → Bool
  | [], [] => true
  | (k1, v1) :: r1, (k2, v2) :: r2 => k1 == k2 && ueq v1 v2 && ueqNamed r1 r2
  | _, _ => false

def ueqAttrs : List (String × U × Bool) → List (String × U × Bool) → Bool
  | [], [] => true
  | (k1, t1, o1) :: r1, (k2, t2, o2) :: r2 =>
      k1 == k2 && ueq t1 t2 && o1 == o2 && ueqAttrs r1 r2
  | _, _ => false
end

theorem ueqList_iff {l1 l2 : List U}
    (h : ∀ x ∈ l1, ∀ b, ueq x b = true ↔ x = b) : ueqList l1 l2 = true ↔ l1 = l2 := by
  induction l1 generalizing l2 with
  | nil => cases l2 <;> simp [ueqList]
  | cons a r ih =>
    cases l2 with
    | nil => simp [ueqList]
    | cons b s =>
      simp only [ueqList, Bool.and_eq_true, List.cons.injEq]
      rw [h a (by simp) b, ih (fun x hx => h x (by simp [hx]))]

theorem ueqOpt_iff {o1 o2 : Option U}
    (h : ∀ x, o1 = some x → ∀ b, ueq x b = true ↔ x = b) : ueqOpt o1 o2 = true ↔ o1 = o2 := by
  cases o1 with
  | none => cases o2 <;> simp [ueqOpt]
  | some a =>
    cases o2 with
    | none => simp [ueqOpt]
    | some b => simp only [ueqOpt, Option.some.injEq]; exact h a rfl b

theorem ueqPairs_iff {l1 l2 : List (U × U)}
    (h : ∀ p ∈ l1, ∀ b, (ueq p.1 b = true ↔ p.1 = b) ∧ (ueq p.2 b = true ↔ p.2 = b)) :
    ueqPairs l1 l2 = true ↔ l1 = l2 := by
  induction l1 generalizing l2 with
  | nil => cases l2 <;> simp [ueqPairs]
  | cons a r ih =>
    cases l2 with
    | nil => obtain ⟨k, v⟩ := a; simp [ueqPairs]
    | cons b s =>
      obtain ⟨k1, v1⟩ := a
      obtain ⟨k2, v2⟩ := b
      simp only [ueqPairs, Bool.and_eq_true, List.cons.injEq, Prod.mk.injEq]
      rw [((h (k1, v1) (by simp) k2).1 : ueq k1 k2 = true ↔ _),
          ((h (k1, v1) (by simp) v2).2 : ueq v1 v2 = true ↔ _),
          ih (fun p hp => h p (by simp [hp]))]
      try tauto

theorem ueqNamed_iff {l1 l2 : List (String × U)}
    (h : ∀ p ∈ l1, ∀ b, ueq p.2 b = true ↔ p.2 = b) : ueqNamed l1 l2 = true ↔ l1 = l2 := by
  induction l1 generalizing l2 with
  | nil => cases l2 <;> simp [ueqNamed]
  | cons a r ih =>
    cases l2 with
    | nil => obtain ⟨k, v⟩ := a; simp [ueqNamed]
    | cons b s =>
      obtain ⟨k1, v1⟩ := a
      obtain ⟨k2, v2⟩ := b
      simp only [ueqNamed, Bool.and_eq_true, List.cons.injEq, Prod.mk.injEq, beq_iff_eq]
      rw [(h (k1, v1) (by simp) v2 : ueq v1 v2 = true ↔ _),
          ih (fun p hp => h p (by simp [hp]))]
      try tauto

theorem ueqAttrs_iff {l1 l2 : List (String × U × Bool)}
    (h : ∀ p ∈ l1, ∀ b, ueq p.2.1 b = true ↔ p.2.1 = b) : ueqAttrs l1 l2 = true ↔ l1 = l2 := by
  induction l1 generalizing l2 with
  | nil => cases l2 <;> simp [ueqAttrs]
  | cons a r ih =>
    cases l2 with
    | nil => obtain ⟨k, t, o⟩ := a; simp [ueqAttrs]
    | cons b s =>
      obtain ⟨k1, t1, o1⟩ := a
      obtain ⟨k2, t2, o2⟩ := b
      simp only [ueqAttrs, Bool.and_eq_true, List.cons.injEq, Prod.mk.injEq, beq_iff_eq]
      rw [(h (k1, t1, o1) (by simp) t2 : ueq t1 t2 = true ↔ _),
          ih (fun p hp => h p (by simp [hp]))]
      try tauto

theorem ueq_iff_eq : ∀ (a b : U), ueq a b = true ↔ a = b := by
  have main : ∀ (n : Nat) (a b : U), sizeOf a ≤ n → (ueq a b = true ↔ a = b) := by
    intro n
    induction n with
    | zero =>
      intro a b h
      exfalso
      cases a <;> simp at h
    | succ n ih =>
      intro a b hs
      cases a <;> cases b <;> simp only [ueq, Bool.and_eq_true, beq_iff_eq] <;>
        try (simp; done)
      case tlist.tlist a b =>
        rw [ih a b (by simp at hs; omega)]
        simp
      case tdict.tdict a b =>
        rw [ih a b (by simp at hs; omega)]
        simp
      case tobj.tobj n1 a1 n2 a2 =>
        rw [ueqAttrs_iff (fun p hp b => ih p.2.1 b (by
          have h1 := List.sizeOf_lt_of_mem hp
          obtain ⟨x, y, z⟩ := p
          simp at h1 hs ⊢
          omega))]
        simp
      case tenum.tenum n1 m1 n2 m2 =>
        rw [ueqNamed_iff (fun p hp b => ih p.2 b (by
          have h1 := List.sizeOf_lt_of_mem hp
          obtain ⟨x, y⟩ := p
          simp at h1 hs ⊢
          omega))]
        simp
      case plist.plist o1 l1 e1 o2 l2 e2 =>
        rw [ueqOpt_iff (fun x hx b => ih x b (by subst hx; simp at hs ⊢; omega)),
            ueqList_iff (fun x hx b => ih x b (by
              have h1 := List.sizeOf_lt_of_mem hx
              simp at hs ⊢
              omega))]
        simp
        tauto
      case pdict.pdict o1 l1 e1 o2 l2 e2 =>
        rw [ueqOpt_iff (fun x hx b => ih x b (by subst hx; simp at hs ⊢; omega)),
            ueqPairs_iff (fun p hp b => by
              have h1 := List.sizeOf_lt_of_mem hp
              obtain ⟨x, y⟩ := p
              constructor
              · exact ih x b (by simp at h1 hs ⊢; omega)
              · exact ih y b (by simp at h1 hs ⊢; omega))]
        simp
        tauto
      case pobj.pobj t1 v1 t2 v2 =>
        rw [ih t1 t2 (by simp at hs ⊢; omega),
            ueqNamed_iff (fun p hp b => ih p.2 b (by
              have h1 := List.sizeOf_lt_of_mem hp
              obtain ⟨x, y⟩ := p
              simp at h1 hs ⊢
              omega))]
        simp
      case pmember.pmember e1 n1 x1 e2 n2 x2 =>
        rw [ih e1 e2 (by simp at hs ⊢; omega), ih x1 x2 (by simp at hs ⊢; omega)]
        simp
        tauto
  exact fun a b => main (sizeOf a) a b (Nat.le_refl _)

theorem ueq_refl (a : U) : ueq a a = true := (ueq_iff_eq a a).2 rfl

instance : DecidableEq U := fun a b =>
  if h : ueq a b = true then isTrue ((ueq_iff_eq a b).1 h)
  else isFalse (fun he => h ((ueq_iff_eq a b).2 he))

/-- Python's numeric tower for `==`: `bool` is a subclass of `int`, and `int`,
`bool` and `float` values compare by numeric value (`True == 1 == 1.0`). -/
def asNum : U → Option Rat
  | pbool b => some (if b then 1 else 0)
  | pint n => some (n : Rat)
  | pfloat q => some q
  | _ => none

def isPnone : U → Bool
  | pnone => true
  | _ => false

/-- Python hashability: primitives, `None` and classes are hashable; `list` and
`dict` instances are not, and `Object` / `EnumMember` instances define `__eq__`
without `__hash__`, which makes them unhashable. -/
def hashable : U → Bool
  | pnone => true
  | pbool _ => true
  | pint _ => true
  | pfloat _ => true
  | pstr _ => true
  | plist _ _ _ => false
  | pdict _ _ _ => false
  | pobj _ _ => false
  | pmember _ _ _ => false
  | _ => true

/-- Python truthiness, `bool(x)`: used by `deserialize(data, bool)` which calls
the `bool` constructor on the raw data. -/
def truthy : U → Bool
  | pnone => false
  | pbool b => b
  | pint n => decide (n ≠ 0)
  | pfloat q => decide (q ≠ 0)
  | pstr s => decide (s ≠ "")
  | plist _ _ es => decide (es ≠ [])
  | pdict _ _ en => decide (en ≠ [])
  | _ => true

/-- `isinstance(v, ty)` for the embedded descriptors.  `bool` is a subclass of
`int`; an instance of a user subclass of a bound container (any `lvl`) is an
instance of the bound class; enum members are instances of `EnumMember`, not of
their owning enum class, so `isinstance(member, SomeEnum)` is `False`. -/
def pyIsInstance (v : U) (ty : U) : Bool :=
  match ty, v with
  | tint, pint _ => true
  | tint, pbool _ => true
  | tfloat, pfloat _ => true
  | tbool, pbool _ => true
  | tstr, pstr _ => true
  | tlist e, plist (some e2) _ _ => decide (e2 = e)
  | tdict e, pdict (some e2) _ _ => decide (e2 = e)
  | tobj nm attrs, pobj ty2 _ => decide (ty2 = tobj nm attrs)
  | _, _ => false

/-- `_check_serializable_type`: the argument must be a class and a subclass of
`SerializableBase`.  All embedded descriptors qualify; runtime values are not
classes. -/
def isSerializableType : U → Bool
  | tint => true
  | tfloat => true
  | tbool => true
  | tstr => true
  | tlist _ => true
  | tdict _ => true
  | tobj _ _ => true
  | tenum _ _ => true
  | _ => false

/-- `isinstance(v, Serializable)`: bound container instances, object instances
and enum members implement the `Serializable` interface. -/
def isSerializableInst : U → Bool
  | plist (some _) _ _ => true
  | pdict (some _) _ _ => true
  | pobj _ _ => true
  | pmember _ _ _ => true
  | _ => false

/-- `isinstance(v, SimpleType)`: `int`, `float`, `bool`, `str` are registered
with the `SimpleType` ABC. -/
def isSimpleInst : U → Bool
  | pbool _ => true
  | pint _ => true
  | pfloat _ => true
  | pstr _ => true
  | _ => false

/-- `isinstance(v, SerializableBase)` (the check `EnumDict.__setitem__` runs on
enum member values). -/
def isSerializableBaseInst (v : U) : Bool := isSerializableInst v || isSimpleInst v

mutual
/-- Python `==` on embedded values, as the library's classes define it:
numbers (incl. `bool`) by numeric value; `list` / `dict` instances by contents
only, whatever the classes of the two objects (`List` and `Dict` do not
override `__eq__`, so the builtin content comparison is inherited);
`Object.__eq__` requires identical concrete type then compares declared
attributes pairwise; `EnumMember.__eq__` requires the same owning enum, name
and (recursively `==`) value.  Classes compare by identity. -/
def pyEq (a b : U) : Bool :=
  match asNum a, asNum b with
  | some qa, some qb => decide (qa = qb)
  | _, _ =>
    match a, b with
    | pstr s1, pstr s2 => s1 == s2
    | plist _ _ e1, plist _ _ e2 => pyEqList e1 e2
    | pdict _ _ e1, pdict _ _ e2 => e1.length == e2.length && pyDictSub e1 e2
    | pobj t1 v1, pobj t2 v2 =>
        decide (t1 = t2) &&
          (match t1 with
           | tobj _ attrs => pyEqObjAttrs attrs v1 v2
           | _ => true)
    | pmember e1 n1 x1, pmember e2 n2 x2 =>
        decide (e1 = e2) && n1 == n2 && pyEq x1 x2
    | a, b => decide (a = b)
termination_by sizeOf a + sizeOf b
decreasing_by all_goals ((try simp) <;> omega)

/-- Elementwise `list` equality (`len` equal and pairwise `==`). -/
def pyEqList : List U → List U → Bool
  | [], [] => true
  | x :: xs, y :: ys => pyEq x y && pyEqList xs ys
  | _, _ => false
termination_by l1 l2 => sizeOf l1 + sizeOf l2
decreasing_by all_goals ((try simp) <;> omega)

/-- `dict` equality, first half: every entry of the first dict has a `==`-equal
key in the second with a `==`-equal value. -/
def pyDictSub : List (U × U) → List (U × U) → Bool
  | [], _ => true
  | (k, v) :: rest, d2 => pyDictMem k v d2 && pyDictSub rest d2
termination_by d1 d2 => sizeOf d1 + sizeOf d2
decreasing_by all_goals ((try simp) <;> omega)

/-- Scan a dict for the first `==`-matching key and compare the stored value
(the lookup a Python `d1[k] == d2[k]` comparison performs). -/
def pyDictMem (k v : U) : List (U × U) → Bool
  | [] => false
  | (k2, v2) :: rest => if pyEq k k2 then pyEq v v2 else pyDictMem k v rest
termination_by en => sizeOf k + sizeOf v + sizeOf en
decreasing_by all_goals ((try simp) <;> omega)

/-- `Object.__eq__`'s attribute walk: for each declared attribute name compare
`getattr(self, name) == getattr(other, name)` (a missing attribute would raise
`AttributeError` inside `__eq__`; modelled as an unequal result, unreachable
for constructed instances). -/
def pyEqObjAttrs : List (String × U × Bool) → List (String × U) → List (String × U) → Bool
  | [], _, _ => true
  | (name, _, _) :: rest, v1, v2 =>
      match h1 : lookupStr name v1, h2 : lookupStr name v2 with
      | some x1, some x2 => pyEq x1 x2 && pyEqObjAttrs rest v1 v2
      | _, _ => false
termination_by attrs v1 v2 => sizeOf v1 + sizeOf v2 + sizeOf attrs
decreasing_by
  all_goals
    first
      | (have g1 := sizeOf_lookupStr h1
         have g2 := sizeOf_lookupStr h2
         (try simp) <;> omega)
      | ((try simp) <;> omega)
end

mutual
/-- The dispatch function `serialize(obj)` together with the `serialize`
methods it dispatches to: a `Serializable` instance delegates to its class's
method, a `SimpleType` instance (`int`, `float`, `bool`, `str`) is returned
unchanged, anything else raises `TypeError` (`'object is not serializable'`).
`List.serialize` maps `serialize` over the elements into a plain list,
`Dict.serialize` over the values into a plain dict (keys carried through),
`Object.serialize` walks the declared attributes (skipping optional attributes
holding `None`), and `EnumMember.serialize` serializes the wrapped value. -/
def serialize : U → Except PyErr U
  | pbool b => .ok (pbool b)
  | pint n => .ok (pint n)
  | pfloat q => .ok (pfloat q)
  | pstr s => .ok (pstr s)
  | plist (some _) _ es => exbind (serializeList es) (fun ss => .ok (plist none 0 ss))
  | pdict (some _) _ en => exbind (serializeDictVals en) (fun sen => .ok (pdict none 0 sen))
  | pobj ty vals =>
      match ty with
      | tobj _ attrs => exbind (serializeObj attrs vals) (fun props => .ok (pdict none 0 props))
      | _ => .error .typeError
  | pmember _ _ v => serialize v
  | _ => .error .typeError
termination_by v => sizeOf v
decreasing_by all_goals ((try simp) <;> omega)

def serializeList : List U → Except PyErr (List U)
  | [] => .ok []
  | x :: rest =>
      exbind (serialize x) (fun s =>
        exbind (serializeList rest) (fun tail => .ok (s :: tail)))
termination_by es => sizeOf es
decreasing_by all_goals ((try simp) <;> omega)

def serializeDictVals : List (U × U) → Except PyErr (List (U × U))
  | [] => .ok []
  | (k, v) :: rest =>
      exbind (serialize v) (fun s =>
        exbind (serializeDictVals rest) (fun tail => .ok ((k, s) :: tail)))
termination_by en => sizeOf en
decreasing_by all_goals ((try simp) <;> omega)

/-- `Object.serialize`: one field per declared attribute in declaration order;
an optional attribute holding `None` is skipped entirely; a missing attribute
would raise `AttributeError` from `getattr` (unreachable for constructed
instances). -/
def serializeObj : List (String × U × Bool) → List (String × U) → Except PyErr (List (U × U))
  | [], _ => .ok []
  | (name, _, opt) :: rest, vals =>
      match h1 : lookupStr name vals with
      | none => .error .attributeError
      | some v =>
          if isPnone v && opt then serializeObj rest vals
          else
            exbind (serialize v) (fun s =>
              exbind (serializeObj rest vals) (fun tail => .ok ((pstr name, s) :: tail)))
termination_by attrs vals => sizeOf attrs + sizeOf vals
decreasing_by
  all_goals
    first
      | (have g1 := sizeOf_lookupStr h1
         (try simp) <;> omega)
      | ((try simp) <;> omega)
end

mutual
/-- The value deserialization reconstructs from serialized data: container
instances sit at the bound class itself (derivation level 0) and all contents
are in canonical form; primitives, `None`, enum members and classes are left
unchanged. -/
def canon : U → U
  | plist o _ es => plist o 0 (canonList es)
  | pdict o _ en => pdict o 0 (canonPairs en)
  | pobj ty vals => pobj ty (canonNamed vals)
  | v => v
termination_by v => sizeOf v
decreasing_by all_goals ((try simp) <;> omega)

def canonList : List U → List U
  | [] => []
  | x :: rest => canon x :: canonList rest
termination_by es => sizeOf es
decreasing_by all_goals ((try simp) <;> omega)

def canonPairs : List (U × U) → List (U × U)
  | [] => []
  | (k, v) :: rest => (k, canon v) :: canonPairs rest
termination_by en => sizeOf en
decreasing_by all_goals ((try simp) <;> omega)

def canonNamed : List (String × U) → List (String × U)
  | [] => []
  | (k, v) :: rest => (k, canon v) :: canonNamed rest
termination_by vs => sizeOf vs
decreasing_by all_goals ((try simp) <;> omega)
end

/-- The by-value index `EnumMeta.__new__` builds (`cls._value_map`): only
hashable member values are inserted; a lookup returns the first member whose
value compares `==`-equal to the probe. -/
def valueMapGet (v : U) : List (String × U) → Option (String × U)
  | [] => none
  | (n, val) :: rest =>
      if hashable val && pyEq val v then some (n, val) else valueMapGet v rest

/-- The linear fallback scan of `from_value` over `cls._name_map.values()`,
returning the first member whose value compares `==`-equal, else `ValueError`
(`'no matching value'`). -/
def scanMembers (ety : U) (v : U) : List (String × U) → Except PyErr U
  | [] => .error .valueError
  | (n, val) :: rest =>
      if pyEq val v then .ok (pmember ety n val) else scanMembers ety v rest

/-- `EnumMeta.from_value`: probe the by-value index; an unhashable probe raises
`TypeError` inside the dict lookup, caught and sent to the linear scan; a
`KeyError` miss is re-raised as `ValueError`. -/
def from_value (ety : U) (v : U) : Except PyErr U :=
  match ety with
  | tenum _ members =>
      if hashable v then
        match valueMapGet v members with
        | some (n, val) => .ok (pmember ety n val)
        | none => .error .valueError
      else scanMembers ety v members
  | _ => .error .typeError

def hashableValsDistinct : List (String × U) → Bool
  | [] => true
  | (_, v) :: rest =>
      (!hashable v || rest.all (fun p => !(hashable p.2 && pyEq p.2 v))) &&
        hashableValsDistinct rest

/-- The checks performed at enum class creation: `EnumDict.__setitem__`
requires each member value to be a `SerializableBase` instance and each name to
be defined once, and `EnumMeta.__new__` raises `ValueError` if a hashable value
repeats an earlier hashable value (unhashable values are skipped, the
documented gap). -/
def enumDeclOK (members : List (String × U)) : Bool :=
  decide ((members.map Prod.fst).Nodup) &&
    members.all (fun p => isSerializableBaseInst p.2) &&
    hashableValsDistinct members

/-- The names of the required (non-optional) attributes, in declaration
order. -/
def requiredNames (attrs : List (String × U × Bool)) : List String :=
  attrs.filterMap (fun p => if p.2.2 then none else some p.1)

/-- `Enum.schema`'s literal list: `serialize(member)` for each member in
declaration order (each member serializes to its wrapped value's serialized
form). -/
def serializeMemberVals : List (String × U) → Except PyErr (List U)
  | [] => .ok []
  | (_, val) :: rest =>
      exbind (serialize val) (fun s =>
        exbind (serializeMemberVals rest) (fun tail => .ok (s :: tail)))

mutual
/-- The dispatch function `schema(python_type)` and the class-level `schema()`
methods: a `Serializable` subclass answers for itself, a `SimpleType` maps to
its JSON Schema type tag (`int`/`float` → `"number"`, `bool` → `"boolean"`,
`str` → `"string"`), anything else raises `TypeError`
(`'type has no JSON schema'`). -/
def schema : U → Except PyErr U
  | tint => .ok (pdict none 0 [(pstr "type", pstr "number")])
  | tfloat => .ok (pdict none 0 [(pstr "type", pstr "number")])
  | tbool => .ok (pdict none 0 [(pstr "type", pstr "boolean")])
  | tstr => .ok (pdict none 0 [(pstr "type", pstr "string")])
  | tlist E =>
      exbind (schema E) (fun s =>
        .ok (pdict none 0 [(pstr "type", pstr "array"), (pstr "items", s)]))
  | tdict E =>
      exbind (schema E) (fun s =>
        .ok (pdict none 0 [(pstr "type", pstr "object"), (pstr "additionalProperties", s)]))
  | tobj _ attrs =>
      exbind (schemaProps attrs) (fun props =>
        .ok (pdict none 0 (
          [(pstr "type", pstr "object"),
           (pstr "properties", pdict none 0 props),
           (pstr "additionalProperties", pbool false)] ++
          (match requiredNames attrs with
           | [] => []
           | req => [(pstr "required", plist none 0 (req.map pstr))]))))
  | tenum _ members =>
      exbind (serializeMemberVals members) (fun lits =>
        .ok (pdict none 0 [(pstr "enum", plist none 0 lits)]))
  | _ => .error .typeError
termination_by ty => sizeOf ty
decreasing_by all_goals ((try simp) <;> omega)

/-- `Object.schema`'s `properties` dict: one schema per declared attribute, in
declaration order. -/
def schemaProps : List (String × U × Bool) → Except PyErr (List (U × U))
  | [] => .ok []
  | (name, ty, _) :: rest =>
      exbind (schema ty) (fun s =>
        exbind (schemaProps rest) (fun tail => .ok ((pstr name, s) :: tail)))
termination_by attrs => sizeOf attrs
decreasing_by all_goals ((try simp) <;> omega)
end

/-- Read a string key of a schema document (a plain dict with `pstr` keys);
the collaborator accesses its schema argument this way. -/
def entGet (k : String) : List (U × U) → Option U
  | [] => none
  | (pstr k2, v) :: rest => if k2 = k then some v else entGet k rest
  | _ :: rest => entGet k rest

def schemaGet (k : String) : U → Option U
  | pdict _ _ entries => entGet k entries
  | _ => none

theorem sizeOf_entGet {k : String} :
    ∀ {en : List (U × U)} {v : U}, entGet k en = some v → sizeOf v < sizeOf en := by
  intro en
  induction en with
  | nil => intro v h; simp [entGet] at h
  | cons hd tl ih =>
    intro v h
    obtain ⟨k1, w⟩ := hd
    match k1 with
    | pstr k2 =>
      simp only [entGet] at h
      by_cases hk : k2 = k
      · simp only [hk, if_pos rfl] at h
        cases h
        simp
        omega
      · simp only [if_neg hk] at h
        have := ih h
        simp
        omega
    | tint | tfloat | tbool | tstr | tlist _ | tdict _ | tobj _ _ | tenum _ _
    | pnone | pbool _ | pint _ | pfloat _ | plist _ _ _ | pdict _ _ _
    | pobj _ _ | pmember _ _ _ =>
      simp only [entGet] at h
      have := ih h
      simp
      omega

theorem sizeOf_schemaGet {k : String} {sch v : U} (h : schemaGet k sch = some v) :
    sizeOf v < sizeOf sch := by
  match sch with
  | pdict o lvl entries =>
    simp only [schemaGet] at h
    have := sizeOf_entGet h
    simp
    omega
  | tint | tfloat | tbool | tstr | tlist _ | tdict _ | tobj _ _ | tenum _ _
  | pnone | pbool _ | pint _ | pfloat _ | pstr _ | plist _ _ _
  | pobj _ _ | pmember _ _ _ => simp [schemaGet] at h

mutual
/-- The equality the modelled collaborator's `enum` keyword uses.  JSON Schema
(and the `jsonschema` library's `equal` helper) distinguishes booleans from
numbers, so unlike Python `==`, `True` does not match the literal `1`; numbers
otherwise compare by value, containers recursively.  (Non-JSON values never
appear in emitted schemas; for them this falls back to structural equality.) -/
def jsEq (a b : U) : Bool :=
  match a, b with
  | pbool x, pbool y => x == y
  | pbool _, _ => false
  | _, pbool _ => false
  | a, b =>
    match asNum a, asNum b with
    | some qa, some qb => decide (qa = qb)
    | _, _ =>
      match a, b with
      | pstr s1, pstr s2 => s1 == s2
      | plist _ _ e1, plist _ _ e2 => jsEqList e1 e2
      | pdict _ _ e1, pdict _ _ e2 => e1.length == e2.length && jsDictSub e1 e2
      | a, b => decide (a = b)
termination_by sizeOf a + sizeOf b
decreasing_by all_goals ((try simp) <;> omega)

def jsEqList : List U → List U → Bool
  | [], [] => true
  | x :: xs, y :: ys => jsEq x y && jsEqList xs ys
  | _, _ => false
termination_by l1 l2 => sizeOf l1 + sizeOf l2
decreasing_by all_goals ((try simp) <;> omega)

def jsDictSub : List (U × U) → List (U × U) → Bool
  | [], _ => true
  | (k, v) :: rest, d2 => jsDictMem k v d2 && jsDictSub rest d2
termination_by d1 d2 => sizeOf d1 + sizeOf d2
decreasing_by all_goals ((try simp) <;> omega)

def jsDictMem (k v : U) : List (U × U) → Bool
  | [] => false
  | (k2, v2) :: rest => if jsEq k k2 then jsEq v v2 else jsDictMem k v rest
termination_by en => sizeOf k + sizeOf v + sizeOf en
decreasing_by all_goals ((try simp) <;> omega)
end

/-- The `type` keyword of the modelled collaborator: `"number"` accepts `int`
and `float` but not `bool` (the library distinguishes booleans from numbers;
the spec flags the boolean/number question as an explicit implementer
decision), `"array"` any `list` instance, `"object"` any `dict` instance. -/
def checkTypeKw (inst sch : U) : Bool :=
  match schemaGet "type" sch with
  | none => true
  | some (pstr t) =>
      if t = "number" then
        match inst with
        | pint _ => true
        | pfloat _ => true
        | _ => false
      else if t = "boolean" then
        match inst with
        | pbool _ => true
        | _ => false
      else if t = "string" then
        match inst with
        | pstr _ => true
        | _ => false
      else if t = "array" then
        match inst with
        | plist _ _ _ => true
        | _ => false
      else if t = "object" then
        match inst with
        | pdict _ _ _ => true
        | _ => false
      else false
  | some _ => false

/-- Does a dict instance carry the given string key? -/
def dictHasKey (s : String) : U → Bool
  | pdict _ _ entries =>
      entries.any (fun p =>
        match p.1 with
        | pstr k => k == s
        | _ => false)
  | _ => false

/-- The `required` keyword of the modelled collaborator (applies to object
instances only). -/
def checkRequiredKw (inst sch : U) : Bool :=
  match schemaGet "required" sch with
  | none => true
  | some (plist _ _ names) =>
      match inst with
      | pdict _ _ _ =>
          names.all (fun nm =>
            match nm with
            | pstr s => dictHasKey s inst
            | _ => false)
      | _ => true
  | some _ => false

mutual
/-- Modelled from the spec: the out-of-scope collaborator
`jsonschema.validate(instance, schema)` (spec §6: raises a distinguishable
`ValidationError` on non-conformance, else returns normally), here as a
conformance test over the JSON Schema subset the library emits — the keywords
`type`, `items`, `properties` / `additionalProperties`, `required` and `enum`.
Returns `true` exactly when the instance conforms. -/
def validate (inst : U) (sch : U) : Bool :=
  checkTypeKw inst sch &&
  (match h1 : schemaGet "items" sch with
   | none => true
   | some isch =>
       match inst with
       | plist _ _ es => validateAll isch es
       | _ => true) &&
  (match inst with
   | pdict _ _ entries => validateProps sch entries
   | _ => true) &&
  checkRequiredKw inst sch &&
  (match schemaGet "enum" sch with
   | none => true
   | some (plist _ _ lits) => lits.any (fun lit => jsEq inst lit)
   | some _ => false)
termination_by sizeOf inst + sizeOf sch
decreasing_by
  all_goals
    first
      | (have g1 := sizeOf_schemaGet h1
         (try simp) <;> omega)
      | ((try simp) <;> omega)

/-- The `items` keyword: every element of an array instance conforms to the
item schema. -/
def validateAll (isch : U) : List U → Bool
  | [] => true
  | x :: rest => validate x isch && validateAll isch rest
termination_by es => sizeOf isch + sizeOf es
decreasing_by all_goals ((try simp) <;> omega)

/-- The conformance check for one property of an object instance: a property
named in `properties` must conform to its schema; anything else is governed by
`additionalProperties`. -/
def propEntryCheck (sch : U) (k v : U) : Bool :=
  match k with
  | pstr ks =>
      match h1 : schemaGet "properties" sch with
      | some props =>
          match h2 : schemaGet ks props with
          | some psch => validate v psch
          | none => validAdditional sch v
      | none => validAdditional sch v
  | _ => validAdditional sch v
termination_by sizeOf sch + sizeOf k + sizeOf v
decreasing_by
  all_goals
    first
      | (have g1 := sizeOf_schemaGet h1
         have g2 := sizeOf_schemaGet h2
         (try simp) <;> omega)
      | (have g1 := sizeOf_schemaGet h1
         (try simp) <;> omega)
      | ((try simp) <;> omega)
      | (rename_i x
         have hp := sizeOf_pos x
         (try simp) <;> omega)

/-- The `properties` / `additionalProperties` keywords over all entries of an
object instance. -/
def validateProps (sch : U) : List (U × U) → Bool
  | [] => true
  | (k, v) :: rest => propEntryCheck sch k v && validateProps sch rest
termination_by entries => sizeOf sch + sizeOf entries
decreasing_by all_goals ((try simp) <;> omega)

/-- A property not named in `properties`: `additionalProperties: false`
rejects it, a schema there must validate it, absence allows it. -/
def validAdditional (sch : U) (v : U) : Bool :=
  match h1 : schemaGet "additionalProperties" sch with
  | none => true
  | some (pbool b) => b
  | some asch => validate v asch
termination_by sizeOf sch + sizeOf v
decreasing_by
  all_goals
    first
      | (have g1 := sizeOf_schemaGet h1
         (try simp) <;> omega)
      | ((try simp) <;> omega)
end

/-- `int(data)`, as `deserialize(data, int)` invokes it: ints and bools convert
exactly, floats truncate toward zero, a string parses as an integer literal
(`ValueError` otherwise; only optionally-signed decimal digits are modelled),
anything else raises `TypeError`. -/
def pyIntOf : U → Except PyErr U
  | pint n => .ok (pint n)
  | pbool b => .ok (pint (if b then 1 else 0))
  | pfloat q => .ok (pint (q.num / (q.den : Int)))
  | pstr s =>
      match s.toInt? with
      | some n => .ok (pint n)
      | none => .error .valueError
  | _ => .error .typeError

/-- `float(data)`: ints and bools widen, floats pass through, a string parses
(only integer literals are modelled), anything else raises `TypeError`. -/
def pyFloatOf : U → Except PyErr U
  | pint n => .ok (pfloat (n : Rat))
  | pbool b => .ok (pfloat (if b then 1 else 0))
  | pfloat q => .ok (pfloat q)
  | pstr s =>
      match s.toInt? with
      | some n => .ok (pfloat (n : Rat))
      | none => .error .valueError
  | _ => .error .typeError

/-- `str(data)`: strings pass through; the textual form of other values (their
`str()` rendering) is modelled only for ints and bools — no theorem below
deserializes compound data at a `str` slot. -/
def pyStrOf : U → Except PyErr U
  | pstr s => .ok (pstr s)
  | pint n => .ok (pstr (toString n))
  | pbool b => .ok (pstr (if b then "True" else "False"))
  | _ => .error .typeError

def isStrVal : U → Bool
  | pstr _ => true
  | _ => false

/-- The type check `Object.__setattr__` runs on a declared attribute: an
optional attribute accepts an instance of its declared type or `None`, a
required one only an instance. -/
def attr_check (aty : U) (opt : Bool) (v : U) : Bool :=
  if opt then pyIsInstance v aty || isPnone v else pyIsInstance v aty

/-- `Object.__init__`'s attribute loop: each declared attribute is taken from
the keyword arguments (through `setattr`, hence the `__setattr__` type check),
defaulted to `None` when optional, or reported missing with `TypeError`. -/
def initAttrs : List (String × U × Bool) → List (String × U) → Except PyErr (List (String × U))
  | [], _ => .ok []
  | (name, aty, opt) :: rest, kwargs =>
      match lookupStr name kwargs with
      | some v =>
          if attr_check aty opt v then
            exbind (initAttrs rest kwargs) (fun tail => .ok ((name, v) :: tail))
          else .error .typeError
      | none =>
          if opt then
            exbind (initAttrs rest kwargs) (fun tail => .ok ((name, pnone) :: tail))
          else .error .typeError

/-- The keyword arguments that name no declared attribute (reported by
`__init__` with `TypeError` after the attribute loop). -/
def unusedKeys (kwargs : List (String × U)) (attrs : List (String × U × Bool)) : List String :=
  (kwargs.map Prod.fst).filter (fun k => (lookupAttr k attrs).isNone)

/-- `Object.__init__` / instantiating an `Object` subclass with keyword
arguments. -/
def object_init (ty : U) (kwargs : List (String × U)) : Except PyErr U :=
  match ty with
  | tobj nm attrs =>
      exbind (initAttrs attrs kwargs) (fun vals =>
        if unusedKeys kwargs attrs = [] then .ok (pobj (tobj nm attrs) vals)
        else .error .typeError)
  | _ => .error .typeError

/-- Update (or create) a binding in an instance `__dict__`. -/
def setStr (name : String) (v : U) : List (String × U) → List (String × U)
  | [] => [(name, v)]
  | (k, w) :: rest => if k = name then (k, v) :: rest else (k, w) :: setStr name v rest

/-- `Object.__setattr__`: a name outside the declared attributes raises
`AttributeError` (`'… is not a valid attribute'`); a declared name re-runs the
construction-time type check and updates the attribute. -/
def object_setattr (obj : U) (name : String) (v : U) : Except PyErr U :=
  match obj with
  | pobj ty vals =>
      match ty with
      | tobj _ attrs =>
          match lookupAttr name attrs with
          | none => .error .attributeError
          | some (aty, opt) =>
              if attr_check aty opt v then .ok (pobj ty (setStr name v vals))
              else .error .typeError
      | _ => .error .attributeError
  | _ => .error .attributeError

/-- `ContainerBase._check_type`: `isinstance(item, cls._container_type)`. -/
def check_type (E : U) (item : U) : Bool := pyIsInstance item E

/-- `List.__init__`: the underlying builtin list is populated first, then every
item is checked against the bound element type; any mismatch aborts the
construction with `TypeError` and the instance is never obtained. -/
def List_init (E : U) (xs : List U) : Except PyErr U :=
  if xs.all (fun x => check_type E x) then .ok (plist (some E) 0 xs)
  else .error .typeError

/-- `Dict.__init__`'s per-entry checks: key type (`str`) first, then the value
against the bound element type. -/
def dictCheckEntries (E : U) : List (U × U) → Except PyErr Unit
  | [] => .ok ()
  | (k, v) :: rest =>
      if isStrVal k = false then .error .typeError
      else if check_type E v = false then .error .typeError
      else dictCheckEntries E rest

/-- `Dict.__init__`. -/
def Dict_init (E : U) (entries : List (U × U)) : Except PyErr U :=
  exbind (dictCheckEntries E entries) (fun _ => .ok (pdict (some E) 0 entries))

/-- Python list index normalization for `obj[i] = v`: a negative index counts
from the end; out of range raises `IndexError`. -/
def normIdx (i : Int) (len : Nat) : Option Nat :=
  let j := if i < 0 then i + len else i
  if 0 ≤ j ∧ j < len then some j.toNat else none

/-- `List.__setitem__`: the element-type check runs first; only then is the
builtin assignment performed, so a rejected write cannot have touched the
list. -/
def List_setitem (E : U) (xs : List U) (i : Int) (v : U) : Except PyErr (List U) :=
  if check_type E v then
    match normIdx i xs.length with
    | some j => .ok (xs.set j v)
    | none => .error .indexError
  else .error .typeError

/-- Python's `list.insert` position: a negative index counts from the end, then
the result is clamped into `[0, len]`. -/
def clampIdx (i : Int) (len : Nat) : Nat :=
  let j := if i < 0 then i + len else i
  if j < 0 then 0 else if j > (len : Int) then len else j.toNat

/-- `List.insert`: the element-type check runs first; only then is the builtin
`list.insert` performed. -/
def List_insert (E : U) (xs : List U) (i : Int) (v : U) : Except PyErr (List U) :=
  if check_type E v then .ok (xs.insertIdx (clampIdx i xs.length) v)
  else .error .typeError

/-- `list.append`, inherited unchanged by `List` (the class overrides only
`__setitem__` and `insert`, and `list.append` does not route through either),
so no type check runs. -/
def List_append (xs : List U) (v : U) : List U := xs ++ [v]

/-- `list.extend`, inherited unchanged by `List`: no type check runs. -/
def List_extend (xs ys : List U) : List U := xs ++ ys

/-- Builtin dict assignment on the representation: replace the first matching
key or append a new binding. -/
def dictSet (entries : List (U × U)) (k v : U) : List (U × U) :=
  match entries with
  | [] => [(k, v)]
  | (k2, w) :: rest => if pyEq k2 k then (k2, v) :: rest else (k2, w) :: dictSet rest k v

/-- Builtin dict lookup on the representation. -/
def dictGet (entries : List (U × U)) (k : U) : Option U :=
  match entries with
  | [] => none
  | (k2, w) :: rest => if pyEq k2 k then some w else dictGet rest k

/-- `Dict.__setitem__`: the key-type check (`str`) runs first and
independently of the value; then the element-type check; only then the builtin
assignment. -/
def Dict_setitem (E : U) (entries : List (U × U)) (k v : U) : Except PyErr (List (U × U)) :=
  if isStrVal k = false then .error .typeError
  else if check_type E v = false then .error .typeError
  else .ok (dictSet entries k v)

/-- `dict.update` (with a mapping argument), inherited unchanged by `Dict`: it
bypasses `__setitem__`, so neither the key nor the value check runs. -/
def Dict_update (entries news : List (U × U)) : List (U × U) :=
  news.foldl (fun acc p => dictSet acc p.1 p.2) entries

/-- `dict.setdefault`, inherited unchanged by `Dict`: returns the existing
value, or inserts and returns the default — no checks run. -/
def Dict_setdefault (entries : List (U × U)) (k v : U) : U × List (U × U) :=
  match dictGet entries k with
  | some w => (w, entries)
  | none => (v, entries ++ [(k, v)])

/-- All elements are instances of the bound element type — the invariant the
checked list operations maintain. -/
def listHomogeneous (E : U) (xs : List U) : Bool := xs.all (fun x => check_type E x)

/-- String keys and element-type values throughout — the invariant the checked
dict operations maintain. -/
def dictHomogeneous (E : U) (entries : List (U × U)) : Bool :=
  entries.all (fun p => isStrVal p.1 && check_type E p.2)

mutual
/-- The deserialization helpers and the dispatch function
`deserialize(data, python_type)`: a `Serializable` subclass first validates the
raw data against its own schema via the collaborator — `ValidationError`
propagates before anything is constructed — and then builds the typed
instance; a `SimpleType` target applies the primitive constructor to the raw
data; anything else raises `TypeError` (`'cannot deserialize to this
type'`). -/
def deserialize (data : U) : U → Except PyErr U
  | tint => pyIntOf data
  | tfloat => pyFloatOf data
  | tbool => .ok (pbool (truthy data))
  | tstr => pyStrOf data
  | tlist E =>
      exbind (schema (tlist E)) (fun sch =>
        if validate data sch then
          match data with
          | plist _ _ es => exbind (deserializeList es E) (fun rs => List_init E rs)
          | _ => .error .validationError
        else .error .validationError)
  | tdict E =>
      exbind (schema (tdict E)) (fun sch =>
        if validate data sch then
          match data with
          | pdict _ _ entries => exbind (deserializeDictVals entries E) (fun rs => Dict_init E rs)
          | _ => .error .validationError
        else .error .validationError)
  | tobj nm attrs =>
      exbind (schema (tobj nm attrs)) (fun sch =>
        if validate data sch then
          match data with
          | pdict _ _ entries =>
              exbind (deserializeKwargs entries attrs) (fun kwargs =>
                object_init (tobj nm attrs) kwargs)
          | _ => .error .validationError
        else .error .validationError)
  | tenum nm members =>
      exbind (schema (tenum nm members)) (fun sch =>
        if validate data sch then from_value (tenum nm members) data
        else .error .validationError)
  | _ => .error .typeError
termination_by ty => sizeOf ty + sizeOf data
decreasing_by all_goals ((try simp) <;> omega)

/-- `List.deserialize`'s element loop: `deserialize(entry, cls._container_type)`
for each entry of the validated data. -/
def deserializeList : List U → U → Except PyErr (List U)
  | [], _ => .ok []
  | d :: rest, E =>
      exbind (deserialize d E) (fun r =>
        exbind (deserializeList rest E) (fun tail => .ok (r :: tail)))
termination_by es E => sizeOf E + sizeOf es
decreasing_by all_goals ((try simp) <;> omega)

/-- `Dict.deserialize`'s entry loop: keys carried through, values
deserialized. -/
def deserializeDictVals : List (U × U) → U → Except PyErr (List (U × U))
  | [], _ => .ok []
  | (k, v) :: rest, E =>
      exbind (deserialize v E) (fun r =>
        exbind (deserializeDictVals rest E) (fun tail => .ok ((k, r) :: tail)))
termination_by en E => sizeOf E + sizeOf en
decreasing_by all_goals ((try simp) <;> omega)

/-- `Object.deserialize`'s field loop: for each field of the validated data,
look up the declared attribute (`cls._object_attributes[name]`; a `KeyError`
there is unreachable after validation) and deserialize the value to its
declared type. -/
def deserializeKwargs : List (U × U) → List (String × U × Bool) → Except PyErr (List (String × U))
  | [], _ => .ok []
  | (k, v) :: rest, attrs =>
      match k with
      | pstr ks =>
          match h1 : lookupAttr ks attrs with
          | none => .error .keyError
          | some (aty, _) =>
              exbind (deserialize v aty) (fun r =>
                exbind (deserializeKwargs rest attrs) (fun tail => .ok ((ks, r) :: tail)))
      | _ => .error .keyError
termination_by en attrs => sizeOf attrs + sizeOf en
decreasing_by
  all_goals
    first
      | (have g1 := sizeOf_lookupAttr h1
         (try simp) <;> omega)
      | ((try simp) <;> omega)
end

/-- The Python `__name__` of a descriptor (cosmetic, used only to format the
name of a freshly created bound container class). -/
def tyName : U → String
  | tint => "int"
  | tfloat => "float"
  | tbool => "bool"
  | tstr => "str"
  | tlist E => "List[" ++ tyName E ++ "]"
  | tdict E => "Dict[" ++ tyName E ++ "]"
  | tobj nm _ => nm
  | tenum nm _ => nm
  | _ => ""

/-- A container class as `ContainerMeta` manages it: its name, its bound
element type (`none` for the unbound bases `List` and `Dict`), and an
allocation id standing for Python object identity. -/
structure ContainerCls where
  cname : String
  containerType : Option U
  oid : Nat
  deriving DecidableEq

/-- The mutable state `ContainerMeta.__getitem__` touches: the base class's
`_subclass_cache` and an allocation counter (a freshly created class gets a
fresh identity). -/
structure ContainerState where
  cache : List (U × ContainerCls)
  nextId : Nat
  deriving DecidableEq

/-- `_subclass_cache` lookup; the keys are element-type classes, compared by
identity. -/
def cacheGet (E : U) : List (U × ContainerCls) → Option ContainerCls
  | [] => none
  | (k, c) :: rest => if k = E then some c else cacheGet E rest

/-- `ContainerMeta.__getitem__` (`Base[ElementType]`): reject an element type
that is not a serializable class (`TypeError`); refuse re-parametrizing an
already-bound class (`TypeError`, `'container type already set …'`); otherwise
answer from `_subclass_cache`, creating and caching the bound subclass on a
miss. -/
def getitem (base : ContainerCls) (st : ContainerState) (E : U) :
    Except PyErr (ContainerCls × ContainerState) :=
  if isSerializableType E = false then .error .typeError
  else if base.containerType.isSome then .error .typeError
  else
    match cacheGet E st.cache with
    | some cls => .ok (cls, st)
    | none =>
        let cls : ContainerCls := ⟨base.cname ++ "[" ++ tyName E ++ "]", some E, st.nextId⟩
        .ok (cls, ⟨st.cache ++ [(E, cls)], st.nextId + 1⟩)

/-- Element- and attribute-type heads whose instances a typed slot can actually
hold: enum members are not instances of their enum class (they are `EnumMember`
objects), so an enum-typed slot rejects everything. -/
def nonEnumHead : U → Bool
  | tenum _ _ => false
  | _ => true

/-- The string keys of a dict value, provided they are all strings. -/
def entryKeyStrs : List (U × U) → Option (List String)
  | [] => some []
  | (pstr k, _) :: rest => (entryKeyStrs rest).map (fun ks => k :: ks)
  | _ => none

/-- All keys are strings and pairwise distinct (every Python dict satisfies
this; the association-list representation makes it a side condition). -/
def strNodupKeys (en : List (U × U)) : Bool :=
  match entryKeyStrs en with
  | some ks => decide ks.Nodup
  | none => false

mutual
/-- Enum member values for which serialize-then-`from_value` recovers the
member: primitives, and bound containers of such values (with distinct string
keys for dicts).  `Object` instances and enum members compare `==`-unequal to
their own serialized form (their `__eq__` is type-strict), so they are
excluded, as are values `EnumDict` would reject at declaration. -/
def enumValSafe : U → Bool
  | pbool _ => true
  | pint _ => true
  | pfloat _ => true
  | pstr _ => true
  | plist (some _) _ es => enumValSafeList es
  | pdict (some _) _ en => strNodupKeys en && enumValSafeVals en
  | _ => false
termination_by v => sizeOf v
decreasing_by all_goals ((try simp) <;> omega)

def enumValSafeList : List U → Bool
  | [] => true
  | x :: rest => enumValSafe x && enumValSafeList rest
termination_by es => sizeOf es
decreasing_by all_goals ((try simp) <;> omega)

def enumValSafeVals : List (U × U) → Bool
  | [] => true
  | (_, v) :: rest => enumValSafe v && enumValSafeVals rest
termination_by en => sizeOf en
decreasing_by all_goals ((try simp) <;> omega)
end

/-- Pairwise distinctness of the declared values in the form the round trip
needs: each member's serialized value compares `==`-equal to exactly one
declared value (its own), so both the by-value index and the linear scan
resolve it to that member. -/
def enumSerDistinct (members : List (String × U)) : Bool :=
  members.all (fun p =>
    match serialize p.2 with
    | .ok s => members.countP (fun q => pyEq q.2 s) == 1
    | .error _ => false)

/-- The enum-shape side conditions of the round-trip theorem: the class is
declarable (`enumDeclOK`), every member value is in the safe class, and the
serialized values are pairwise distinct. -/
def enumShapeSafe (members : List (String × U)) : Bool :=
  enumDeclOK members && members.all (fun p => enumValSafe p.2) && enumSerDistinct members

mutual
/-- `schema(T)` raises for no part of this descriptor (an enum anywhere inside
it has serializable member values). -/
def tyOK : U → Bool
  | tint => true
  | tfloat => true
  | tbool => true
  | tstr => true
  | tlist E => tyOK E
  | tdict E => tyOK E
  | tobj _ attrs => tyOKAttrs attrs
  | tenum _ members => members.all (fun p => (serialize p.2).isOk)
  | _ => false
termination_by ty => sizeOf ty
decreasing_by all_goals ((try simp) <;> omega)

def tyOKAttrs : List (String × U × Bool) → Bool
  | [] => true
  | (_, ty, _) :: rest => tyOK ty && tyOKAttrs rest
termination_by attrs => sizeOf attrs
decreasing_by all_goals ((try simp) <;> omega)
end

mutual
/-- Well-typedness of a value at a descriptor — the hypothesis of the amended
round-trip theorem.  It strengthens the constructors' own checks to the
invariants they maintain (homogeneous contents, aligned attribute dicts,
distinct dict keys) and excludes the corners where deserialization provably
departs from the original: a `bool` stored at an `int` slot (the collaborator
rejects booleans where `"number"` is expected), enum-typed element or
attribute slots (no value is an instance of an enum class), and enum shapes
outside `enumShapeSafe`. -/
def WellTyped : U → U → Bool
  | tint, pint _ => true
  | tfloat, pfloat _ => true
  | tbool, pbool _ => true
  | tstr, pstr _ => true
  | tlist E, plist (some E2) _ es =>
      decide (E2 = E) && nonEnumHead E && WellTypedList E es
  | tdict E, pdict (some E2) _ en =>
      decide (E2 = E) && nonEnumHead E && strNodupKeys en && WellTypedVals E en
  | tobj nm attrs, pobj ty vals =>
      decide (ty = tobj nm attrs) && decide ((attrs.map Prod.fst).Nodup) &&
        WellTypedAttrs attrs vals
  | tenum nm members, pmember ety mname mval =>
      decide (ety = tenum nm members) && enumShapeSafe members &&
        decide (lookupStr mname members = some mval)
  | _, _ => false
termination_by ty v => sizeOf ty + sizeOf v
decreasing_by all_goals ((try simp) <;> omega)

def WellTypedList (E : U) : List U → Bool
  | [] => true
  | x :: rest => WellTyped E x && WellTypedList E rest
termination_by es => sizeOf E + sizeOf es
decreasing_by all_goals ((try simp) <;> omega)

def WellTypedVals (E : U) : List (U × U) → Bool
  | [] => true
  | (_, v) :: rest => WellTyped E v && WellTypedVals E rest
termination_by en => sizeOf E + sizeOf en
decreasing_by all_goals ((try simp) <;> omega)

/-- The instance `__dict__` lists exactly the declared attributes, in
declaration order; a required attribute holds a well-typed value, an optional
one that or the absent marker `None`. -/
def WellTypedAttrs : List (String × U × Bool) → List (String × U) → Bool
  | [], [] => true
  | (n1, aty, opt) :: arest, (n2, v) :: vrest =>
      n1 == n2 && nonEnumHead aty &&
        (if opt then isPnone v || WellTyped aty v else WellTyped aty v) &&
        WellTypedAttrs arest vrest
  | _, _ => false
termination_by attrs vals => sizeOf attrs + sizeOf vals
decreasing_by all_goals ((try simp) <;> omega)
end

theorem cacheGet_append_of_none {E : U} {c : ContainerCls} :
    ∀ {cache : List (U × ContainerCls)}, cacheGet E cache = none →
      cacheGet E (cache ++ [(E, c)]) = some c := by
  intro cache
  induction cache with
  | nil => intro _; simp [cacheGet]
  | cons hd tl ih =>
    intro h
    obtain ⟨k, c0⟩ := hd
    simp only [cacheGet] at h ⊢
    by_cases hk : k = E
    · simp [hk] at h
    · simp only [if_neg hk] at h ⊢
      exact ih h

theorem pyIsInstance_pnone (ty : U) : pyIsInstance pnone ty = false := by
  cases ty <;> simp [pyIsInstance]

theorem dictSet_append_of_get_none {k v : U} :
    ∀ {entries : List (U × U)}, dictGet entries k = none →
      dictSet entries k v = entries ++ [(k, v)] := by
  intro entries
  induction entries with
  | nil => intro _; simp [dictSet]
  | cons hd tl ih =>
    intro h
    obtain ⟨k2, w⟩ := hd
    simp only [dictGet] at h
    by_cases hk : pyEq k2 k = true
    · simp [hk] at h
    · simp only [Bool.not_eq_true] at hk
      simp only [dictSet, hk, Bool.false_eq_true, if_neg, if_false, List.cons_append,
        List.cons.injEq, true_and]
      simp only [hk, if_neg, Bool.false_eq_true] at h
      exact ih h

/-!
## The claims

Each claim of the specification gets exactly one theorem below (plus a
counterexample and a witness where the statuses require them).
-/

/-- C2, the claim as stated is false on the code: `List` and `Dict` do not
override `__eq__`, so the builtin content comparison is inherited, and an
instance of a user subclass of `List[int]` (derivation level 1) with the same
elements as a `List[int]` instance (level 0) compares equal — the claim says
such a comparison always returns false.  The same holds for `Dict`. -/
theorem C2_level_eq_counterexample :
    pyEq (plist (some tint) 1 [pint 1, pint 2, pint 3])
      (plist (some tint) 0 [pint 1, pint 2, pint 3]) = true ∧
    pyEq (pdict (some tint) 1 [(pstr "one", pint 1)])
      (pdict (some tint) 0 [(pstr "one", pint 1)]) = true := by
  constructor
  · simp [pyEq, pyEqList, asNum]
  · simp [pyEq, asNum, pyDictSub, pyDictMem]

/-- C2 (amended): equality between two container instances never consults
their classes or derivation levels at all — it is exactly the builtin content
comparison (elementwise for lists; size plus key-wise value comparison for
dicts), so two containers of different derivation levels with equal contents
are equal. -/
theorem C2_container_eq_ignores_level (o1 o2 : Option U) (l1 l2 : Nat)
    (es1 es2 : List U) (en1 en2 : List (U × U)) :
    pyEq (plist o1 l1 es1) (plist o2 l2 es2) = pyEqList es1 es2 ∧
    pyEq (pdict o1 l1 en1) (pdict o2 l2 en2) =
      ((en1.length == en2.length) && pyDictSub en1 en2) := by
  constructor
  · simp [pyEq, asNum]
  · simp [pyEq, asNum]

/-- C4: for a container base class and a valid element type, requesting
`Base[E]` twice returns the identical canonical bound class object both times
(and the second request does not change the cache state). -/
theorem C4_canonical_binding (base : ContainerCls) (st : ContainerState) (E : U)
    (hE : isSerializableType E = true) (hunbound : base.containerType = none) :
    ∃ cls st1, getitem base st E = .ok (cls, st1) ∧
      getitem base st1 E = .ok (cls, st1) := by
  have hsome : base.containerType.isSome = false := by simp [hunbound]
  match hc : cacheGet E st.cache with
  | some cls =>
    refine ⟨cls, st, ?_, ?_⟩ <;> simp [getitem, hE, hsome, hc]
  | none =>
    refine ⟨⟨base.cname ++ "[" ++ tyName E ++ "]", some E, st.nextId⟩,
      ⟨st.cache ++ [(E, ⟨base.cname ++ "[" ++ tyName E ++ "]", some E, st.nextId⟩)],
        st.nextId + 1⟩, ?_, ?_⟩
    · simp [getitem, hE, hsome, hc]
    · simp [getitem, hE, hsome, cacheGet_append_of_none hc]

/-- C4 witness: binding `List` to `int` twice from the empty cache. -/
theorem C4_canonical_binding_witness :
    ∃ cls st1, getitem ⟨"List", none, 0⟩ ⟨[], 1⟩ tint = .ok (cls, st1) ∧
      getitem ⟨"List", none, 0⟩ st1 tint = .ok (cls, st1) :=
  C4_canonical_binding ⟨"List", none, 0⟩ ⟨[], 1⟩ tint (by simp [isSerializableType]) rfl

/-- C5: a `List[E]` element write or insert with a value that is not an
instance of `E` fails with `TypeError` — the shape-violation class — and,
because `_check_type` runs before the builtin mutation is invoked, the list
still holds exactly its previous elements. -/
theorem C5_rejected_write_unchanged (E : U) (xs : List U) (i : Int) (v : U)
    (hv : check_type E v = false) :
    List_setitem E xs i v = .error .typeError ∧
    List_insert E xs i v = .error .typeError := by
  constructor
  · simp [List_setitem, hv]
  · simp [List_insert, hv]

/-- C5 witness: `List[int]([1,2,3])` then `insert(1, "x")` and `[1] = "x"`,
exactly the spec's example. -/
theorem C5_rejected_write_unchanged_witness :
    check_type tint (pstr "x") = false ∧
    List_setitem tint [pint 1, pint 2, pint 3] 1 (pstr "x") = .error .typeError ∧
    List_insert tint [pint 1, pint 2, pint 3] 1 (pstr "x") = .error .typeError := by
  refine ⟨by simp [check_type, pyIsInstance], ?_, ?_⟩
  · exact (C5_rejected_write_unchanged tint [pint 1, pint 2, pint 3] 1 (pstr "x")
      (by simp [check_type, pyIsInstance])).1
  · exact (C5_rejected_write_unchanged tint [pint 1, pint 2, pint 3] 1 (pstr "x")
      (by simp [check_type, pyIsInstance])).2

/-- C8: a `Dict[E]` write with a non-string key fails with `TypeError` even
when the value is a correct instance of `E` (the key check runs first,
independent of the value check), and a construction whose data carries a
non-string key fails the same way. -/
theorem C8_key_check_first_and_independent (E : U) (entries rest : List (U × U))
    (k v : U) (hk : isStrVal k = false) (hv : check_type E v = true) :
    Dict_setitem E entries k v = .error .typeError ∧
    Dict_init E ((k, v) :: rest) = .error .typeError := by
  constructor
  · simp [Dict_setitem, hk]
  · simp [Dict_init, dictCheckEntries, hk]

/-- C8 witness: `Dict[int]` rejects the integer key `1` carrying the correctly
typed value `5`, on write and on construction. -/
theorem C8_key_check_first_and_independent_witness :
    isStrVal (pint 1) = false ∧ check_type tint (pint 5) = true ∧
    Dict_setitem tint [] (pint 1) (pint 5) = .error .typeError ∧
    Dict_init tint [(pint 1, pint 5)] = .error .typeError := by
  refine ⟨by simp [isStrVal], by simp [check_type, pyIsInstance], ?_, ?_⟩
  · exact (C8_key_check_first_and_independent tint [] [] (pint 1) (pint 5)
      (by simp [isStrVal]) (by simp [check_type, pyIsInstance])).1
  · exact (C8_key_check_first_and_independent tint [] [] (pint 1) (pint 5)
      (by simp [isStrVal]) (by simp [check_type, pyIsInstance])).2

/-- C9: the inherited mutators run no type checks: `list.append` and
`list.extend` insert ill-typed values without raising, leaving a `List[E]`
inhomogeneous, and `dict.update` / `dict.setdefault` insert entries (here:
with an ill-typed key, the value unconstrained) without raising, leaving a
`Dict[E]` inhomogeneous.  Only `__setitem__` / `insert` (on `List`) and
`__setitem__` (on `Dict`) enforce the element type, as C5 and C8 record. -/
theorem C9_inherited_mutators_unchecked (E : U) (xs : List U) (v : U)
    (entries : List (U × U)) (k w : U)
    (hv : check_type E v = false) (hk : isStrVal k = false)
    (habs : dictGet entries k = none) :
    List_append xs v = xs ++ [v] ∧
    listHomogeneous E (List_append xs v) = false ∧
    List_extend xs [v] = xs ++ [v] ∧
    listHomogeneous E (List_extend xs [v]) = false ∧
    Dict_update entries [(k, w)] = entries ++ [(k, w)] ∧
    dictHomogeneous E (Dict_update entries [(k, w)]) = false ∧
    Dict_setdefault entries k w = (w, entries ++ [(k, w)]) ∧
    dictHomogeneous E (entries ++ [(k, w)]) = false := by
  have hupd : Dict_update entries [(k, w)] = entries ++ [(k, w)] := by
    simp [Dict_update, dictSet_append_of_get_none habs]
  refine ⟨rfl, ?_, rfl, ?_, hupd, ?_, ?_, ?_⟩
  · simp [listHomogeneous, List_append, hv]
  · simp [listHomogeneous, List_extend, hv]
  · rw [hupd]
    simp [dictHomogeneous, hk]
  · simp [Dict_setdefault, habs]
  · simp [dictHomogeneous, hk]

/-- C9 witness: `List[int]([1,2,3]).append("x")` succeeds and leaves the list
inhomogeneous; `Dict[int]` `update` / `setdefault` with the non-string key `1`
succeed. -/
theorem C9_inherited_mutators_unchecked_witness :
    check_type tint (pstr "x") = false ∧
    List_append [pint 1, pint 2, pint 3] (pstr "x") =
      [pint 1, pint 2, pint 3, pstr "x"] ∧
    listHomogeneous tint (List_append [pint 1, pint 2, pint 3] (pstr "x")) = false ∧
    Dict_setdefault [] (pint 1) (pint 5) = (pint 5, [(pint 1, pint 5)]) := by
  have h := C9_inherited_mutators_unchecked tint [pint 1, pint 2, pint 3] (pstr "x")
    [] (pint 1) (pint 5)
    (by simp [check_type, pyIsInstance]) (by simp [isStrVal]) (by simp [dictGet])
  refine ⟨by simp [check_type, pyIsInstance], ?_, h.2.1, ?_⟩
  · rw [h.1]
    simp
  · rw [h.2.2.2.2.2.2.1]
    simp

theorem lookupStr_append_single {n name : String} {v : U} {kwargs : List (String × U)} :
    lookupStr n (kwargs ++ [(name, v)]) =
      match lookupStr n kwargs with
      | some w => some w
      | none => if name = n then some v else none := by
  induction kwargs with
  | nil => simp [lookupStr]
  | cons hd tl ih =>
    obtain ⟨k, w⟩ := hd
    by_cases hk : k = n
    · simp [lookupStr, hk]
    · simp only [List.cons_append, lookupStr, if_neg hk]
      exact ih

theorem lookupAttr_mem {n : String} {aty : U} {opt : Bool} :
    ∀ {attrs : List (String × U × Bool)}, lookupAttr n attrs = some (aty, opt) →
      n ∈ attrs.map Prod.fst := by
  intro attrs
  induction attrs with
  | nil => intro h; simp [lookupAttr] at h
  | cons hd tl ih =>
    intro h
    obtain ⟨k, t, o⟩ := hd
    simp only [lookupAttr] at h
    by_cases hk : k = n
    · simp [hk]
    · simp only [if_neg hk] at h
      simpa using Or.inr (ih h)

theorem lookupAttr_nodup_all_optional {name : String} {aty : U} :
    ∀ {attrs : List (String × U × Bool)}, (attrs.map Prod.fst).Nodup →
      lookupAttr name attrs = some (aty, true) →
      ∀ t o, (name, t, o) ∈ attrs → o = true := by
  intro attrs
  induction attrs with
  | nil => intro _ h; simp [lookupAttr] at h
  | cons hd tl ih =>
    intro hnodup hlk t o hm
    obtain ⟨n1, t1, o1⟩ := hd
    simp only [List.map_cons, List.nodup_cons] at hnodup
    simp only [List.mem_cons] at hm
    by_cases hn : n1 = name
    · subst hn
      simp only [lookupAttr, eq_self_iff_true, if_true] at hlk
      rw [Option.some_inj] at hlk
      cases hm with
      | inl h =>
        cases h
        cases hlk
        rfl
      | inr h =>
        exact absurd (List.mem_map_of_mem Prod.fst h) hnodup.1
    · simp only [lookupAttr, if_neg hn] at hlk
      cases hm with
      | inl h =>
        cases h
        exact absurd rfl hn
      | inr h => exact ih hnodup.2 hlk t o h

theorem initAttrs_append_absent_optional {name : String} {kwargs : List (String × U)}
    (hkw : lookupStr name kwargs = none) :
    ∀ {attrs : List (String × U × Bool)},
      (∀ t o, (name, t, o) ∈ attrs → o = true) →
      initAttrs attrs (kwargs ++ [(name, pnone)]) = initAttrs attrs kwargs := by
  intro attrs
  induction attrs with
  | nil => intro _; simp [initAttrs]
  | cons hd tl ih =>
    intro hopt
    obtain ⟨n1, t1, o1⟩ := hd
    have htl : ∀ t o, (name, t, o) ∈ tl → o = true := fun t o hm => hopt t o (by simp [hm])
    by_cases hn : n1 = name
    · subst hn
      have ho1 : o1 = true := hopt t1 o1 (by simp)
      subst ho1
      simp only [initAttrs, lookupStr_append_single, hkw, if_pos rfl]
      simp only [attr_check, isPnone, pyIsInstance_pnone, Bool.or_true, if_true, if_pos rfl]
      rw [ih htl]
    · simp only [initAttrs, lookupStr_append_single]
      match hlk : lookupStr n1 kwargs with
      | some v => rw [ih htl]
      | none =>
        have : name = n1 ↔ False := by
          constructor
          · intro h; exact hn h.symm
          · intro h; exact h.elim
        simp only [this, if_false]
        rw [ih htl]

theorem unusedKeys_append_declared {name : String} {kwargs : List (String × U)}
    {attrs : List (String × U × Bool)} (hmem : (lookupAttr name attrs).isSome = true) :
    unusedKeys (kwargs ++ [(name, pnone)]) attrs = unusedKeys kwargs attrs := by
  simp only [unusedKeys, List.map_append, List.filter_append, List.map_cons, List.map_nil,
    List.filter_cons]
  have : (lookupAttr name attrs).isNone = false := by
    cases h : lookupAttr name attrs
    · simp [h] at hmem
    · simp
  simp [this]

theorem serializeObj_entGet_none {name : String} :
    ∀ {attrs : List (String × U × Bool)} {vals : List (String × U)} {props : List (U × U)},
      name ∉ attrs.map Prod.fst → serializeObj attrs vals = .ok props →
      entGet name props = none := by
  intro attrs
  induction attrs with
  | nil =>
    intro vals props _ hser
    simp only [serializeObj] at hser
    cases hser
    simp [entGet]
  | cons hd tl ih =>
    intro vals props hnm hser
    obtain ⟨n1, t1, o1⟩ := hd
    have hn1 : n1 ≠ name := by
      intro h
      exact hnm (by simp [h])
    have htl : name ∉ tl.map Prod.fst := by
      intro h
      exact hnm (by simp [h])
    simp only [serializeObj] at hser
    split at hser
    · cases hser
    · rename_i v hlk
      by_cases hskip : (isPnone v && o1) = true
      · rw [if_pos hskip] at hser
        exact ih htl hser
      · rw [if_neg hskip] at hser
        match hs : serialize v with
        | .error e => rw [hs] at hser; cases hser
        | .ok s =>
          rw [hs] at hser
          simp only [exbind_ok] at hser
          match ht : serializeObj tl vals with
          | .error e => rw [ht] at hser; cases hser
          | .ok tail =>
            rw [ht] at hser
            simp only [exbind_ok] at hser
            cases hser
            simp only [entGet, if_neg hn1]
            exact ih htl ht

theorem serializeObj_skips_none_optional {name : String} {aty : U} :
    ∀ {attrs : List (String × U × Bool)} {vals : List (String × U)} {props : List (U × U)},
      (attrs.map Prod.fst).Nodup → lookupAttr name attrs = some (aty, true) →
      lookupStr name vals = some pnone → serializeObj attrs vals = .ok props →
      entGet name props = none := by
  intro attrs
  induction attrs with
  | nil => intro vals props _ h; simp [lookupAttr] at h
  | cons hd tl ih =>
    intro vals props hnodup hattr hval hser
    obtain ⟨n1, t1, o1⟩ := hd
    simp only [List.map_cons, List.nodup_cons] at hnodup
    by_cases hn : n1 = name
    · subst hn
      simp only [lookupAttr, eq_self_iff_true, if_true] at hattr
      rw [Option.some_inj] at hattr
      cases hattr
      simp only [serializeObj] at hser
      split at hser
      · rename_i hnone
        rw [hval] at hnone
        cases hnone
      · rename_i v hsome
        rw [hval] at hsome
        cases hsome
        simp only [isPnone, Bool.and_true, if_true] at hser
        exact serializeObj_entGet_none hnodup.1 hser
    · simp only [lookupAttr, if_neg hn] at hattr
      simp only [serializeObj] at hser
      split at hser
      · cases hser
      · rename_i v hlk
        by_cases hskip : (isPnone v && o1) = true
        · rw [if_pos hskip] at hser
          exact ih hnodup.2 hattr hval hser
        · rw [if_neg hskip] at hser
          match hs : serialize v with
          | .error e => rw [hs] at hser; cases hser
          | .ok s =>
            rw [hs] at hser
            simp only [exbind_ok] at hser
            match ht : serializeObj tl vals with
            | .error e => rw [ht] at hser; cases hser
            | .ok tail =>
              rw [ht] at hser
              simp only [exbind_ok] at hser
              cases hser
              have hn1 : n1 ≠ name := hn
              simp only [entGet, if_neg hn1]
              exact ih hnodup.2 hattr hval ht

/-- C10: `None` is the absent marker for optional attributes at the public
interface.  (a) Assigning `None` to an optional attribute succeeds and stores
`None`; (b) assigning `None` to a required attribute raises `TypeError`
(`None` is an instance of no serializable type); (c) constructing with the
optional attribute explicitly `None` yields exactly the construction without
it (so the two states are one and the same object state); (d) an optional
attribute holding `None` is omitted by `serialize` — the output carries no
binding for it at all. -/
theorem C10_none_is_absent_marker (nm name reqname : String) (aty rty : U)
    (attrs : List (String × U × Bool)) (vals : List (String × U))
    (kwargs : List (String × U)) (props : List (U × U))
    (hnodup : (attrs.map Prod.fst).Nodup)
    (hopt : lookupAttr name attrs = some (aty, true))
    (hreq : lookupAttr reqname attrs = some (rty, false))
    (hkw : lookupStr name kwargs = none)
    (hval : lookupStr name vals = some pnone)
    (hser : serializeObj attrs vals = .ok props) :
    object_setattr (pobj (tobj nm attrs) vals) name pnone =
      .ok (pobj (tobj nm attrs) (setStr name pnone vals)) ∧
    object_setattr (pobj (tobj nm attrs) vals) reqname pnone = .error .typeError ∧
    object_init (tobj nm attrs) (kwargs ++ [(name, pnone)]) =
      object_init (tobj nm attrs) kwargs ∧
    entGet name props = none := by
  refine ⟨?_, ?_, ?_, ?_⟩
  · simp [object_setattr, hopt, attr_check, isPnone]
  · simp [object_setattr, hreq, attr_check, pyIsInstance_pnone]
  · simp only [object_init]
    rw [initAttrs_append_absent_optional hkw (lookupAttr_nodup_all_optional hnodup hopt),
      unusedKeys_append_declared (by simp [hopt])]
  · exact serializeObj_skips_none_optional hnodup hopt hval hser

/-- C10 witness: the spec's shape (`integer: int` required, `string: str`
required, `optional: str` optional) — assigning `None` to `optional` succeeds,
to `integer` raises `TypeError`, construction with `optional=None` equals
construction without it, and the serialized output has no `optional` key. -/
theorem C10_none_is_absent_marker_witness :
    object_setattr
      (pobj (tobj "Foo" [("integer", tint, false), ("string", tstr, false), ("optional", tstr, true)])
        [("integer", pint 1), ("string", pstr "foo"), ("optional", pnone)])
      "optional" pnone =
      .ok (pobj (tobj "Foo" [("integer", tint, false), ("string", tstr, false), ("optional", tstr, true)])
        (setStr "optional" pnone
          [("integer", pint 1), ("string", pstr "foo"), ("optional", pnone)])) ∧
    object_setattr
      (pobj (tobj "Foo" [("integer", tint, false), ("string", tstr, false), ("optional", tstr, true)])
        [("integer", pint 1), ("string", pstr "foo"), ("optional", pnone)])
      "integer" pnone = .error .typeError ∧
    object_init (tobj "Foo" [("integer", tint, false), ("string", tstr, false), ("optional", tstr, true)])
      ([("integer", pint 1), ("string", pstr "foo")] ++ [("optional", pnone)]) =
    object_init (tobj "Foo" [("integer", tint, false), ("string", tstr, false), ("optional", tstr, true)])
      [("integer", pint 1), ("string", pstr "foo")] ∧
    entGet "optional" [(pstr "integer", pint 1), (pstr "string", pstr "foo")] = none := by
  refine C10_none_is_absent_marker "Foo" "optional" "integer" tstr tint
    [("integer", tint, false), ("string", tstr, false), ("optional", tstr, true)]
    [("integer", pint 1), ("string", pstr "foo"), ("optional", pnone)]
    [("integer", pint 1), ("string", pstr "foo")]
    [(pstr "integer", pint 1), (pstr "string", pstr "foo")]
    (by simp) (by simp [lookupAttr]) (by simp [lookupAttr]) (by simp [lookupStr])
    (by simp [lookupStr]) ?_
  simp [serializeObj, lookupStr, isPnone, serialize]

theorem pyEq_hashable {a b : U} (h : pyEq a b = true) (hb : hashable b = true) :
    hashable a = true := by
  cases a <;> cases b <;> simp_all [pyEq, asNum, hashable]

theorem valueMapGet_some_of_exists {v : U} :
    ∀ {members : List (String × U)},
      (∃ p ∈ members, hashable p.2 = true ∧ pyEq p.2 v = true) →
      ∃ n val, valueMapGet v members = some (n, val) ∧ (n, val) ∈ members ∧
        pyEq val v = true := by
  intro members
  induction members with
  | nil => intro h; simp at h
  | cons hd tl ih =>
    intro h
    obtain ⟨n1, v1⟩ := hd
    by_cases hhd : (hashable v1 && pyEq v1 v) = true
    · exact ⟨n1, v1, by simp [valueMapGet, hhd], by simp,
        (Bool.and_eq_true .. ▸ hhd).2⟩
    · have : ∃ p ∈ tl, hashable p.2 = true ∧ pyEq p.2 v = true := by
        obtain ⟨p, hp, h1, h2⟩ := h
        rcases List.mem_cons.mp hp with he | hm
        · exfalso
          apply hhd
          rw [he] at h1 h2
          simp [h1, h2]
        · exact ⟨p, hm, h1, h2⟩
      obtain ⟨n, val, h1, h2, h3⟩ := ih this
      exact ⟨n, val, by simp [valueMapGet, hhd, h1], by simp [h2], h3⟩

theorem valueMapGet_none_of_all {v : U} :
    ∀ {members : List (String × U)}, (∀ p ∈ members, pyEq p.2 v = false) →
      valueMapGet v members = none := by
  intro members
  induction members with
  | nil => intro _; simp [valueMapGet]
  | cons hd tl ih =>
    intro h
    obtain ⟨n1, v1⟩ := hd
    have h1 : pyEq v1 v = false := h (n1, v1) (by simp)
    simp only [valueMapGet, h1, Bool.and_false, Bool.false_eq_true, if_false]
    exact ih (fun p hp => h p (by simp [hp]))

theorem scanMembers_some_of_exists {ety v : U} :
    ∀ {members : List (String × U)}, (∃ p ∈ members, pyEq p.2 v = true) →
      ∃ n val, scanMembers ety v members = .ok (pmember ety n val) ∧ (n, val) ∈ members ∧
        pyEq val v = true := by
  intro members
  induction members with
  | nil => intro h; simp at h
  | cons hd tl ih =>
    intro h
    obtain ⟨n1, v1⟩ := hd
    by_cases hhd : pyEq v1 v = true
    · exact ⟨n1, v1, by simp [scanMembers, hhd], by simp, hhd⟩
    · have : ∃ p ∈ tl, pyEq p.2 v = true := by
        obtain ⟨p, hp, h2⟩ := h
        rcases List.mem_cons.mp hp with he | hm
        · rw [he] at h2
          exact absurd h2 hhd
        · exact ⟨p, hm, h2⟩
      obtain ⟨n, val, h1, h2, h3⟩ := ih this
      exact ⟨n, val, by simp [scanMembers, hhd, h1], by simp [h2], h3⟩

theorem scanMembers_error_of_all {ety v : U} :
    ∀ {members : List (String × U)}, (∀ p ∈ members, pyEq p.2 v = false) →
      scanMembers ety v members = .error .valueError := by
  intro members
  induction members with
  | nil => intro _; simp [scanMembers]
  | cons hd tl ih =>
    intro h
    obtain ⟨n1, v1⟩ := hd
    have h1 : pyEq v1 v = false := h (n1, v1) (by simp)
    simp only [scanMembers, h1, Bool.false_eq_true, if_false]
    exact ih (fun p hp => h p (by simp [hp]))

/-- C7: `from_value(v)` probes the by-value index when `v` is hashable and
falls back to the linear member scan when it is not; whenever some member's
value compares `==`-equal to `v` it returns such a member, and when none does
it fails with `ValueError`.  Type-level `deserialize(d)` first validates `d`
against the enum schema via the collaborator and then resolves the member by
`from_value` applied to the raw serialized data. -/
theorem C7_enum_from_value_and_deserialize (nm : String) (members : List (String × U))
    (v : U) (sch : U) (hsch : schema (tenum nm members) = .ok sch) :
    ((∃ p ∈ members, pyEq p.2 v = true) →
      ∃ n val, from_value (tenum nm members) v = .ok (pmember (tenum nm members) n val) ∧
        (n, val) ∈ members ∧ pyEq val v = true) ∧
    ((∀ p ∈ members, pyEq p.2 v = false) →
      from_value (tenum nm members) v = .error .valueError) ∧
    (validate v sch = true →
      deserialize v (tenum nm members) = from_value (tenum nm members) v) ∧
    (validate v sch = false →
      deserialize v (tenum nm members) = .error .validationError) := by
  refine ⟨?_, ?_, ?_, ?_⟩
  · intro hex
    by_cases hv : hashable v = true
    · obtain ⟨p, hp, hmatch⟩ := hex
      obtain ⟨n, val, h1, h2, h3⟩ := valueMapGet_some_of_exists
        ⟨p, hp, pyEq_hashable hmatch hv, hmatch⟩
      exact ⟨n, val, by simp [from_value, hv, h1], h2, h3⟩
    · obtain ⟨n, val, h1, h2, h3⟩ := scanMembers_some_of_exists hex
      refine ⟨n, val, ?_, h2, h3⟩
      simp only [from_value, hv, Bool.false_eq_true, if_false]
      exact h1
  · intro hall
    by_cases hv : hashable v = true
    · simp [from_value, hv, valueMapGet_none_of_all hall]
    · simp only [from_value, hv, Bool.false_eq_true, if_false]
      exact scanMembers_error_of_all hall
  · intro hval
    simp [deserialize, hsch, hval]
  · intro hval
    simp [deserialize, hsch, hval]

/-- C7 witness: the spec's enum `{foo: "bar", one: 1}` — `from_value("bar")`
resolves to a member whose value equals `"bar"` (namely `foo`),
`from_value("missing")` fails with `ValueError`, and `deserialize("bar")`
validates and then resolves via `from_value` on the raw data. -/
theorem C7_enum_from_value_and_deserialize_witness :
    (∃ n val,
      from_value (tenum "E" [("foo", pstr "bar"), ("one", pint 1)]) (pstr "bar") =
        .ok (pmember (tenum "E" [("foo", pstr "bar"), ("one", pint 1)]) n val) ∧
      (n, val) ∈ [("foo", pstr "bar"), ("one", pint 1)] ∧
      pyEq val (pstr "bar") = true) ∧
    from_value (tenum "E" [("foo", pstr "bar"), ("one", pint 1)]) (pstr "missing") =
      .error .valueError ∧
    deserialize (pstr "bar") (tenum "E" [("foo", pstr "bar"), ("one", pint 1)]) =
      from_value (tenum "E" [("foo", pstr "bar"), ("one", pint 1)]) (pstr "bar") := by
  have hsch : schema (tenum "E" [("foo", pstr "bar"), ("one", pint 1)]) =
      .ok (pdict none 0 [(pstr "enum", plist none 0 [pstr "bar", pint 1])]) := by
    simp [schema, serializeMemberVals, serialize]
  have h1 := C7_enum_from_value_and_deserialize "E" [("foo", pstr "bar"), ("one", pint 1)]
    (pstr "bar") (pdict none 0 [(pstr "enum", plist none 0 [pstr "bar", pint 1])]) hsch
  have h2 := C7_enum_from_value_and_deserialize "E" [("foo", pstr "bar"), ("one", pint 1)]
    (pstr "missing") (pdict none 0 [(pstr "enum", plist none 0 [pstr "bar", pint 1])]) hsch
  refine ⟨h1.1 ⟨("foo", pstr "bar"), by simp, by simp [pyEq, asNum]⟩, ?_, ?_⟩
  · refine h2.2.1 ?_
    intro p hp
    rcases List.mem_cons.mp hp with he | hm
    · rw [he]
      simp [pyEq, asNum]
    · simp only [List.mem_singleton] at hm
      rw [hm]
      simp [pyEq, asNum]
  · refine (h1.2.2.1) ?_
    simp [validate, checkTypeKw, schemaGet, entGet, checkRequiredKw, jsEq, asNum]

theorem serializeObj_present {name : String} {aty : U} {opt : Bool} {v : U} :
    ∀ {attrs : List (String × U × Bool)} {vals : List (String × U)} {props : List (U × U)},
      (attrs.map Prod.fst).Nodup → lookupAttr name attrs = some (aty, opt) →
      lookupStr name vals = some v → (isPnone v && opt) = false →
      serializeObj attrs vals = .ok props →
      ∃ s, serialize v = .ok s ∧ entGet name props = some s := by
  intro attrs
  induction attrs with
  | nil => intro vals props _ h; simp [lookupAttr] at h
  | cons hd tl ih =>
    intro vals props hnodup hattr hval hpres hser
    obtain ⟨n1, t1, o1⟩ := hd
    simp only [List.map_cons, List.nodup_cons] at hnodup
    by_cases hn : n1 = name
    · subst hn
      simp only [lookupAttr, eq_self_iff_true, if_true] at hattr
      rw [Option.some_inj] at hattr
      cases hattr
      simp only [serializeObj] at hser
      split at hser
      · rename_i hnone
        rw [hval] at hnone
        cases hnone
      · rename_i w hsome
        rw [hval] at hsome
        cases hsome
        rw [if_neg (by simp [hpres])] at hser
        match hs : serialize v with
        | .error e => rw [hs] at hser; cases hser
        | .ok s =>
          rw [hs] at hser
          simp only [exbind_ok] at hser
          match ht : serializeObj tl vals with
          | .error e => rw [ht] at hser; cases hser
          | .ok tail =>
            rw [ht] at hser
            simp only [exbind_ok] at hser
            cases hser
            exact ⟨s, rfl, by simp [entGet]⟩
    · simp only [lookupAttr, if_neg hn] at hattr
      simp only [serializeObj] at hser
      split at hser
      · cases hser
      · rename_i w hlk
        by_cases hskip : (isPnone w && o1) = true
        · rw [if_pos hskip] at hser
          exact ih hnodup.2 hattr hval hpres hser
        · rw [if_neg hskip] at hser
          match hs : serialize w with
          | .error e => rw [hs] at hser; cases hser
          | .ok s =>
            rw [hs] at hser
            simp only [exbind_ok] at hser
            match ht : serializeObj tl vals with
            | .error e => rw [ht] at hser; cases hser
            | .ok tail =>
              rw [ht] at hser
              simp only [exbind_ok] at hser
              cases hser
              obtain ⟨s2, hs2, hg⟩ := ih hnodup.2 hattr hval hpres ht
              have hn1 : n1 ≠ name := hn
              exact ⟨s2, hs2, by simp [entGet, if_neg hn1, hg]⟩

theorem serializeObj_keys :
    ∀ {attrs : List (String × U × Bool)} {vals : List (String × U)} {props : List (U × U)},
      serializeObj attrs vals = .ok props →
      ∀ q ∈ props, ∃ n t o, (n, t, o) ∈ attrs ∧ q.1 = pstr n := by
  intro attrs
  induction attrs with
  | nil =>
    intro vals props hser
    simp only [serializeObj] at hser
    cases hser
    intro q hq
    simp at hq
  | cons hd tl ih =>
    intro vals props hser q hq
    obtain ⟨n1, t1, o1⟩ := hd
    simp only [serializeObj] at hser
    split at hser
    · cases hser
    · rename_i w hlk
      by_cases hskip : (isPnone w && o1) = true
      · rw [if_pos hskip] at hser
        obtain ⟨n, t, o, hm, he⟩ := ih hser q hq
        exact ⟨n, t, o, by simp [hm], he⟩
      · rw [if_neg hskip] at hser
        match hs : serialize w with
        | .error e => rw [hs] at hser; cases hser
        | .ok s =>
          rw [hs] at hser
          simp only [exbind_ok] at hser
          match ht : serializeObj tl vals with
          | .error e => rw [ht] at hser; cases hser
          | .ok tail =>
            rw [ht] at hser
            simp only [exbind_ok] at hser
            cases hser
            rcases List.mem_cons.mp hq with he | hm
            · exact ⟨n1, t1, o1, by simp, by rw [he]⟩
            · obtain ⟨n, t, o, hm2, he2⟩ := ih ht q hm
              exact ⟨n, t, o, by simp [hm2], he2⟩

/-- C6: `Object.serialize` emits exactly one field per declared, present
attribute: the instance serializes to a plain dict whose keys all name
declared attributes; an optional attribute holding the absent marker
contributes no key at all (and never a null value); and every present
attribute contributes its recursively serialized value under its own name. -/
theorem C6_object_serialize (nm : String) (attrs : List (String × U × Bool))
    (vals : List (String × U)) (props : List (U × U))
    (hnodup : (attrs.map Prod.fst).Nodup)
    (hser : serializeObj attrs vals = .ok props) :
    serialize (pobj (tobj nm attrs) vals) = .ok (pdict none 0 props) ∧
    (∀ name aty, lookupAttr name attrs = some (aty, true) →
      lookupStr name vals = some pnone → entGet name props = none) ∧
    (∀ name aty opt v, lookupAttr name attrs = some (aty, opt) →
      lookupStr name vals = some v → (isPnone v && opt) = false →
      ∃ s, serialize v = .ok s ∧ entGet name props = some s) ∧
    (∀ q ∈ props, ∃ n t o, (n, t, o) ∈ attrs ∧ q.1 = pstr n) := by
  refine ⟨by simp [serialize, hser], ?_, ?_, serializeObj_keys hser⟩
  · intro name aty h1 h2
    exact serializeObj_skips_none_optional hnodup h1 h2 hser
  · intro name aty opt v h1 h2 h3
    exact serializeObj_present hnodup h1 h2 h3 hser

/-- C6 witness: the spec's example — `integer=1`, `string="foo"`, `optional`
absent serializes to `{"integer": 1, "string": "foo"}` with no `"optional"`
key. -/
theorem C6_object_serialize_witness :
    serialize (pobj (tobj "Foo" [("integer", tint, false), ("string", tstr, false), ("optional", tstr, true)])
      [("integer", pint 1), ("string", pstr "foo"), ("optional", pnone)]) =
      .ok (pdict none 0 [(pstr "integer", pint 1), (pstr "string", pstr "foo")]) ∧
    entGet "optional" [(pstr "integer", pint 1), (pstr "string", pstr "foo")] = none ∧
    (∃ s, serialize (pint 1) = .ok s ∧
      entGet "integer" [(pstr "integer", pint 1), (pstr "string", pstr "foo")] = some s) := by
  have h := C6_object_serialize "Foo"
    [("integer", tint, false), ("string", tstr, false), ("optional", tstr, true)]
    [("integer", pint 1), ("string", pstr "foo"), ("optional", pnone)]
    [(pstr "integer", pint 1), (pstr "string", pstr "foo")]
    (by simp) (by simp [serializeObj, lookupStr, isPnone, serialize])
  refine ⟨h.1, ?_, ?_⟩
  · exact h.2.1 "optional" tstr (by simp [lookupAttr]) (by simp [lookupStr])
  · exact h.2.2.1 "integer" tint false (pint 1) (by simp [lookupAttr])
      (by simp [lookupStr]) (by simp [isPnone])

/-- The raw mapping carries a field that names no declared attribute (or a
non-string key). -/
def hasUnknownField (attrs : List (String × U × Bool)) (entries : List (U × U)) : Bool :=
  entries.any (fun p =>
    match p.1 with
    | pstr k => (lookupAttr k attrs).isNone
    | _ => true)

/-- Some required attribute has no field in the raw mapping. -/
def missingRequiredField (attrs : List (String × U × Bool)) (entries : List (U × U)) : Bool :=
  attrs.any (fun a => !a.2.2 && !(entries.any (fun p => p.1 = pstr a.1)))

/-- Some field's value does not conform to the schema of its declared
attribute type. -/
def wrongTypedField (attrs : List (String × U × Bool)) (entries : List (U × U)) : Bool :=
  entries.any (fun p =>
    match p.1 with
    | pstr k =>
        match lookupAttr k attrs with
        | some (aty, _) =>
            match schema aty with
            | .ok asch => !validate p.2 asch
            | .error _ => true
        | none => false
    | _ => false)

theorem validAdditional_of_false {sch v : U}
    (hap : schemaGet "additionalProperties" sch = some (pbool false)) :
    validAdditional sch v = false := by
  simp only [validAdditional]
  split
  · rename_i heq
    rw [hap] at heq
    cases heq
  · rename_i b heq
    rw [hap] at heq
    rw [Option.some_inj] at heq
    cases heq
    rfl
  · rename_i hne heq
    rw [hap] at heq
    rw [Option.some_inj] at heq
    simp_all

theorem validateProps_forall {sch : U} :
    ∀ {entries : List (U × U)}, validateProps sch entries = true →
      ∀ p ∈ entries, propEntryCheck sch p.1 p.2 = true := by
  intro entries
  induction entries with
  | nil => intro _ p hp; simp at hp
  | cons hd tl ih =>
    intro h p hp
    obtain ⟨k, v⟩ := hd
    simp only [validateProps, Bool.and_eq_true] at h
    rcases List.mem_cons.mp hp with he | hm
    · rw [he]
      exact h.1
    · exact ih h.2 p hm

theorem schemaProps_entGet_none {k : String} :
    ∀ {attrs : List (String × U × Bool)} {sprops : List (U × U)},
      schemaProps attrs = .ok sprops → lookupAttr k attrs = none →
      entGet k sprops = none := by
  intro attrs
  induction attrs with
  | nil =>
    intro sprops hs _
    simp only [schemaProps] at hs
    cases hs
    simp [entGet]
  | cons hd tl ih =>
    intro sprops hs hlk
    obtain ⟨n1, t1, o1⟩ := hd
    simp only [lookupAttr] at hlk
    by_cases hn : n1 = k
    · simp [hn] at hlk
    · rw [if_neg hn] at hlk
      simp only [schemaProps] at hs
      match h1 : schema t1 with
      | .error e => rw [h1] at hs; cases hs
      | .ok s =>
        rw [h1] at hs
        simp only [exbind_ok] at hs
        match h2 : schemaProps tl with
        | .error e => rw [h2] at hs; cases hs
        | .ok tail =>
          rw [h2] at hs
          simp only [exbind_ok] at hs
          cases hs
          simp only [entGet, if_neg hn]
          exact ih h2 hlk

theorem schemaProps_entGet_some {k : String} {aty : U} {opt : Bool} :
    ∀ {attrs : List (String × U × Bool)} {sprops : List (U × U)},
      schemaProps attrs = .ok sprops → lookupAttr k attrs = some (aty, opt) →
      ∃ asch, schema aty = .ok asch ∧ entGet k sprops = some asch := by
  intro attrs
  induction attrs with
  | nil => intro sprops _ h; simp [lookupAttr] at h
  | cons hd tl ih =>
    intro sprops hs hlk
    obtain ⟨n1, t1, o1⟩ := hd
    simp only [schemaProps] at hs
    match h1 : schema t1 with
    | .error e => rw [h1] at hs; cases hs
    | .ok s =>
      rw [h1] at hs
      simp only [exbind_ok] at hs
      match h2 : schemaProps tl with
      | .error e => rw [h2] at hs; cases hs
      | .ok tail =>
        rw [h2] at hs
        simp only [exbind_ok] at hs
        cases hs
        simp only [lookupAttr] at hlk
        by_cases hn : n1 = k
        · rw [if_pos hn] at hlk
          rw [Option.some_inj] at hlk
          cases hlk
          exact ⟨s, h1, by simp [entGet, hn]⟩
        · rw [if_neg hn] at hlk
          obtain ⟨asch, ha, hb⟩ := ih h2 hlk
          exact ⟨asch, ha, by simp [entGet, if_neg hn, hb]⟩

theorem requiredNames_mem {rn : String} {rty : U} :
    ∀ {attrs : List (String × U × Bool)}, lookupAttr rn attrs = some (rty, false) →
      rn ∈ requiredNames attrs := by
  intro attrs
  induction attrs with
  | nil => intro h; simp [lookupAttr] at h
  | cons hd tl ih =>
    intro h
    obtain ⟨n1, t1, o1⟩ := hd
    simp only [lookupAttr] at h
    by_cases hn : n1 = rn
    · rw [if_pos hn] at h
      rw [Option.some_inj] at h
      cases h
      simp [requiredNames, List.filterMap_cons, hn]
    · rw [if_neg hn] at h
      have hmem := ih h
      simp only [requiredNames] at hmem
      rcases Bool.eq_false_or_eq_true o1 with ho | ho <;> subst ho <;>
        simp only [requiredNames, List.filterMap_cons, if_true, if_false] <;> simp [hmem]

theorem schema_tobj_shape {nm : String} {attrs : List (String × U × Bool)} {sch : U}
    (hsch : schema (tobj nm attrs) = .ok sch) :
    ∃ sprops, schemaProps attrs = .ok sprops ∧
      schemaGet "type" sch = some (pstr "object") ∧
      schemaGet "properties" sch = some (pdict none 0 sprops) ∧
      schemaGet "additionalProperties" sch = some (pbool false) ∧
      schemaGet "required" sch =
        (match requiredNames attrs with
         | [] => none
         | req => some (plist none 0 (req.map pstr))) := by
  simp only [schema] at hsch
  match hp : schemaProps attrs with
  | .error e => rw [hp] at hsch; cases hsch
  | .ok sprops =>
    rw [hp] at hsch
    simp only [exbind_ok] at hsch
    cases hsch
    refine ⟨sprops, rfl, ?_, ?_, ?_, ?_⟩ <;>
      cases hreq : requiredNames attrs <;>
        simp [schemaGet, entGet, hreq]

/-- C3: `Object.deserialize` validates the raw mapping against the declared
schema via the collaborator before constructing anything: a field naming no
declared attribute, a missing required field, or a field whose value fails its
attribute's schema makes the validation fail, so `deserialize` stops with
`ValidationError` — the construction code after the validation call is never
reached and no instance is built. -/
theorem C3_validation_precedes_construction (nm : String)
    (attrs : List (String × U × Bool)) (o : Option U) (lvl : Nat)
    (entries : List (U × U)) (sch : U)
    (hsch : schema (tobj nm attrs) = .ok sch)
    (hbad : hasUnknownField attrs entries = true ∨
      missingRequiredField attrs entries = true ∨ wrongTypedField attrs entries = true) :
    validate (pdict o lvl entries) sch = false ∧
    deserialize (pdict o lvl entries) (tobj nm attrs) = .error .validationError := by
  obtain ⟨sprops, hprops, hty, hpr, hap, hrq⟩ := schema_tobj_shape hsch
  have hfalse : validate (pdict o lvl entries) sch = false := by
    rw [Bool.eq_false_iff]
    intro hval
    simp only [validate, Bool.and_eq_true] at hval
    obtain ⟨⟨⟨⟨_, _⟩, hpropsOK⟩, hreqOK⟩, _⟩ := hval
    rcases hbad with hunk | hmiss | hwrong
    · simp only [hasUnknownField, List.any_eq_true] at hunk
      obtain ⟨p, hp, hbadp⟩ := hunk
      have hchk := validateProps_forall hpropsOK p hp
      match hk : p.1 with
      | pstr k =>
          rw [hk] at hbadp
          simp only [Option.isNone_iff_eq_none] at hbadp
          rw [hk] at hchk
          simp only [propEntryCheck] at hchk
          split at hchk
          · rename_i props hpr2
            rw [hpr] at hpr2
            rw [Option.some_inj] at hpr2
            subst hpr2
            split at hchk
            · rename_i psch hps
              simp only [schemaGet] at hps
              rw [schemaProps_entGet_none hprops hbadp] at hps
              cases hps
            · rw [validAdditional_of_false hap] at hchk
              cases hchk
          · rename_i hpr2
            rw [hpr] at hpr2
            cases hpr2
      | tint | tfloat | tbool | tstr | tlist _ | tdict _ | tobj _ _ | tenum _ _
      | pnone | pbool _ | pint _ | pfloat _ | plist _ _ _ | pdict _ _ _
      | pobj _ _ | pmember _ _ _ =>
          rw [hk] at hchk
          simp only [propEntryCheck] at hchk
          rw [validAdditional_of_false hap] at hchk
          cases hchk
    · simp only [missingRequiredField, List.any_eq_true] at hmiss
      obtain ⟨a, ha, hbada⟩ := hmiss
      obtain ⟨an, aty, aopt⟩ := a
      simp only [Bool.and_eq_true, Bool.not_eq_true'] at hbada
      obtain ⟨hreq2, habs⟩ := hbada
      have haopt : aopt = false := by
        cases aopt
        · rfl
        · cases hreq2
      subst haopt
      have hanmem : an ∈ requiredNames attrs :=
        List.mem_filterMap.mpr ⟨(an, aty, false), ha, by simp⟩
      match hreqn : requiredNames attrs with
      | [] => rw [hreqn] at hanmem; cases hanmem
      | r :: rs =>
        rw [hreqn] at hrq
        simp only at hrq
        simp only [checkRequiredKw] at hreqOK
        split at hreqOK
        · rename_i hrq2
          rw [hrq] at hrq2
          cases hrq2
        · rename_i ol ll names hrq2
          rw [hrq] at hrq2
          rw [Option.some_inj] at hrq2
          cases hrq2
          rw [hreqn] at hanmem
          have hmemmap : pstr an ∈ (r :: rs).map pstr := List.mem_map_of_mem pstr hanmem
          have := (List.all_eq_true.mp hreqOK) (pstr an) hmemmap
          simp only [dictHasKey, List.any_eq_true] at this
          obtain ⟨p, hp, hpk⟩ := this
          match hk : p.1 with
          | pstr k =>
              rw [hk] at hpk
              simp only [beq_iff_eq] at hpk
              subst hpk
              have := List.any_eq_false.mp habs p hp
              rw [hk] at this
              simp at this
          | tint | tfloat | tbool | tstr | tlist _ | tdict _ | tobj _ _ | tenum _ _
          | pnone | pbool _ | pint _ | pfloat _ | plist _ _ _ | pdict _ _ _
          | pobj _ _ | pmember _ _ _ =>
              rw [hk] at hpk
              cases hpk
        · rename_i hne hrq2
          rw [hrq] at hrq2
          rw [Option.some_inj] at hrq2
          simp_all
    · simp only [wrongTypedField, List.any_eq_true] at hwrong
      obtain ⟨p, hp, hbadp⟩ := hwrong
      have hchk := validateProps_forall hpropsOK p hp
      match hk : p.1 with
      | pstr k =>
          rw [hk] at hbadp hchk
          match hlk : lookupAttr k attrs with
          | none => simp only [hlk] at hbadp; cases hbadp
          | some (aty, aopt) =>
              simp only [hlk] at hbadp
              obtain ⟨asch, hascha, haschb⟩ := schemaProps_entGet_some hprops hlk
              simp only [hascha, Bool.not_eq_true'] at hbadp
              simp only [propEntryCheck] at hchk
              split at hchk
              · rename_i props hpr2
                rw [hpr] at hpr2
                rw [Option.some_inj] at hpr2
                subst hpr2
                split at hchk
                · rename_i psch hps
                  simp only [schemaGet] at hps
                  rw [haschb] at hps
                  rw [Option.some_inj] at hps
                  subst hps
                  rw [hchk] at hbadp
                  cases hbadp
                · rename_i hps
                  simp only [schemaGet] at hps
                  rw [haschb] at hps
                  cases hps
              · rename_i hpr2
                rw [hpr] at hpr2
                cases hpr2
      | tint | tfloat | tbool | tstr | tlist _ | tdict _ | tobj _ _ | tenum _ _
      | pnone | pbool _ | pint _ | pfloat _ | plist _ _ _ | pdict _ _ _
      | pobj _ _ | pmember _ _ _ =>
          rw [hk] at hbadp
          cases hbadp
  refine ⟨hfalse, ?_⟩
  simp [deserialize, hsch, hfalse]

/-- C3 witness: for the spec's example object shape (`integer: int` required,
`string: str` required, `optional: str` optional), a raw mapping carrying the
unknown key `extra` fails validation against the generated schema, and
`deserialize` raises the validation error without constructing anything. -/
theorem C3_validation_precedes_construction_witness :
    validate
      (pdict none 0 [(pstr "integer", pint 1), (pstr "string", pstr "foo"),
        (pstr "extra", pbool true)])
      (pdict none 0
        [(pstr "type", pstr "object"),
         (pstr "properties", pdict none 0
           [(pstr "integer", pdict none 0 [(pstr "type", pstr "number")]),
            (pstr "string", pdict none 0 [(pstr "type", pstr "string")]),
            (pstr "optional", pdict none 0 [(pstr "type", pstr "string")])]),
         (pstr "additionalProperties", pbool false),
         (pstr "required", plist none 0 [pstr "integer", pstr "string"])]) = false ∧
    deserialize
      (pdict none 0 [(pstr "integer", pint 1), (pstr "string", pstr "foo"),
        (pstr "extra", pbool true)])
      (tobj "Foo" [("integer", tint, false), ("string", tstr, false),
        ("optional", tstr, true)]) = .error .validationError := by
  have hsch : schema (tobj "Foo" [("integer", tint, false), ("string", tstr, false),
      ("optional", tstr, true)]) = .ok (pdict none 0
        [(pstr "type", pstr "object"),
         (pstr "properties", pdict none 0
           [(pstr "integer", pdict none 0 [(pstr "type", pstr "number")]),
            (pstr "string", pdict none 0 [(pstr "type", pstr "string")]),
            (pstr "optional", pdict none 0 [(pstr "type", pstr "string")])]),
         (pstr "additionalProperties", pbool false),
         (pstr "required", plist none 0 [pstr "integer", pstr "string"])]) := by
    simp [schema, schemaProps, requiredNames]
  have hbad : hasUnknownField
      [("integer", tint, false), ("string", tstr, false), ("optional", tstr, true)]
      [(pstr "integer", pint 1), (pstr "string", pstr "foo"),
        (pstr "extra", pbool true)] = true := by
    simp [hasUnknownField, lookupAttr]
  exact C3_validation_precedes_construction "Foo"
    [("integer", tint, false), ("string", tstr, false), ("optional", tstr, true)]
    none 0
    [(pstr "integer", pint 1), (pstr "string", pstr "foo"), (pstr "extra", pbool true)]
    _ hsch (Or.inl hbad)

theorem lookupStr_mem {n : String} {v : U} :
    ∀ {vs : List (String × U)}, lookupStr n vs = some v → (n, v) ∈ vs := by
  intro vs
  induction vs with
  | nil => intro h; simp [lookupStr] at h
  | cons hd tl ih =>
    intro h
    obtain ⟨k, w⟩ := hd
    simp only [lookupStr] at h
    by_cases hk : k = n
    · subst hk
      rw [if_pos rfl] at h
      rw [Option.some_inj] at h
      cases h
      simp
    · rw [if_neg hk] at h
      simp [ih h]

theorem lookupStr_eq_none_of_not_mem {n : String} :
    ∀ {vs : List (String × U)}, n ∉ vs.map Prod.fst → lookupStr n vs = none := by
  intro vs
  induction vs with
  | nil => intro _; simp [lookupStr]
  | cons hd tl ih =>
    intro h
    obtain ⟨k, w⟩ := hd
    simp only [List.map_cons, List.mem_cons] at h
    push_neg at h
    have hk : ¬ k = n := fun he => h.1 he.symm
    simp only [lookupStr, if_neg hk]
    exact ih h.2

theorem lookupAttr_of_mem_nodup {n : String} {t : U} {o : Bool} :
    ∀ {attrs : List (String × U × Bool)}, (attrs.map Prod.fst).Nodup →
      (n, t, o) ∈ attrs → lookupAttr n attrs = some (t, o) := by
  intro attrs
  induction attrs with
  | nil => intro _ h; simp at h
  | cons hd tl ih =>
    intro hnd hm
    obtain ⟨k, t1, o1⟩ := hd
    simp only [List.map_cons, List.nodup_cons] at hnd
    rcases List.mem_cons.mp hm with he | hm2
    · cases he
      simp [lookupAttr]
    · have hk : k ≠ n := by
        intro he
        subst he
        exact hnd.1 (List.mem_map_of_mem Prod.fst hm2)
      simp only [lookupAttr, if_neg hk]
      exact ih hnd.2 hm2

theorem mem_lookupAttr_isSome {n : String} :
    ∀ {attrs : List (String × U × Bool)}, n ∈ attrs.map Prod.fst →
      (lookupAttr n attrs).isSome = true := by
  intro attrs
  induction attrs with
  | nil => intro h; simp at h
  | cons hd tl ih =>
    intro h
    obtain ⟨k, t1, o1⟩ := hd
    by_cases hk : k = n
    · simp [lookupAttr, hk]
    · simp only [List.map_cons, List.mem_cons] at h
      rcases h with he | hm
      · exact absurd he.symm hk
      · simp only [lookupAttr, if_neg hk]
        exact ih hm

theorem isPnone_eq {v : U} (h : isPnone v = true) : v = pnone := by
  cases v <;> first | rfl | simp [isPnone] at h

theorem tyOKAttrs_mem {n : String} {t : U} {o : Bool} :
    ∀ {attrs : List (String × U × Bool)}, tyOKAttrs attrs = true →
      (n, t, o) ∈ attrs → tyOK t = true := by
  intro attrs
  induction attrs with
  | nil => intro _ h; simp at h
  | cons hd tl ih =>
    intro hok hm
    obtain ⟨k, t1, o1⟩ := hd
    simp only [tyOKAttrs, Bool.and_eq_true] at hok
    rcases List.mem_cons.mp hm with he | hm2
    · cases he
      exact hok.1
    · exact ih hok.2 hm2

theorem pyEq_pstr_iff {k1 k2 : String} : pyEq (pstr k1) (pstr k2) = (k1 == k2) := by
  simp [pyEq, asNum]

theorem jsEq_pstr_iff {k1 k2 : String} : jsEq (pstr k1) (pstr k2) = (k1 == k2) := by
  simp [jsEq, asNum]

theorem pyDictMem_cons_ne {k k0 : String} {v w : U} {rest : List (U × U)}
    (h : k ≠ k0) :
    pyDictMem (pstr k) v ((pstr k0, w) :: rest) = pyDictMem (pstr k) v rest := by
  simp [pyDictMem, pyEq_pstr_iff, h]

theorem jsDictMem_cons_ne {k k0 : String} {v w : U} {rest : List (U × U)}
    (h : k ≠ k0) :
    jsDictMem (pstr k) v ((pstr k0, w) :: rest) = jsDictMem (pstr k) v rest := by
  simp [jsDictMem, jsEq_pstr_iff, h]

theorem pyDictSub_cons_right {k0 : String} {w : U} :
    ∀ {en1 en2 : List (U × U)},
      (∀ p ∈ en1, ∃ k, p.1 = pstr k ∧ k ≠ k0) →
      pyDictSub en1 en2 = true →
      pyDictSub en1 ((pstr k0, w) :: en2) = true := by
  intro en1
  induction en1 with
  | nil => intro en2 _ _; simp [pyDictSub]
  | cons hd tl ih =>
    intro en2 hk hsub
    obtain ⟨a, v⟩ := hd
    obtain ⟨k, hk1, hk2⟩ := hk (a, v) (by simp)
    simp only at hk1
    subst hk1
    simp only [pyDictSub, Bool.and_eq_true] at hsub ⊢
    refine ⟨?_, ih (fun p hp => hk p (by simp [hp])) hsub.2⟩
    rw [pyDictMem_cons_ne hk2]
    exact hsub.1

theorem jsDictSub_cons_right {k0 : String} {w : U} :
    ∀ {en1 en2 : List (U × U)},
      (∀ p ∈ en1, ∃ k, p.1 = pstr k ∧ k ≠ k0) →
      jsDictSub en1 en2 = true →
      jsDictSub en1 ((pstr k0, w) :: en2) = true := by
  intro en1
  induction en1 with
  | nil => intro en2 _ _; simp [jsDictSub]
  | cons hd tl ih =>
    intro en2 hk hsub
    obtain ⟨a, v⟩ := hd
    obtain ⟨k, hk1, hk2⟩ := hk (a, v) (by simp)
    simp only at hk1
    subst hk1
    simp only [jsDictSub, Bool.and_eq_true] at hsub ⊢
    refine ⟨?_, ih (fun p hp => hk p (by simp [hp])) hsub.2⟩
    rw [jsDictMem_cons_ne hk2]
    exact hsub.1

theorem pyDictSub_ptwise :
    ∀ {ks : List String} {en1 en2 : List (U × U)},
      en1.map Prod.fst = ks.map pstr → en2.map Prod.fst = ks.map pstr → ks.Nodup →
      List.Forall₂ (fun p q => pyEq p.2 q.2 = true) en1 en2 →
      pyDictSub en1 en2 = true := by
  intro ks
  induction ks with
  | nil =>
    intro en1 en2 h1 _ _ _
    cases en1 with
    | nil => simp [pyDictSub]
    | cons p t => simp at h1
  | cons k0 krest ih =>
    intro en1 en2 h1 h2 hnd hf
    cases en1 with
    | nil => simp at h1
    | cons p1 t1 =>
      cases en2 with
      | nil => simp at h2
      | cons q1 t2 =>
        obtain ⟨p1a, p1v⟩ := p1
        obtain ⟨q1a, q1v⟩ := q1
        simp only [List.map_cons, List.cons.injEq] at h1 h2
        simp only [List.nodup_cons] at hnd
        cases hf with
        | cons hpq hftl =>
          simp only at h1 h2 hpq
          obtain ⟨h1a, h1b⟩ := h1
          obtain ⟨h2a, h2b⟩ := h2
          subst h1a
          subst h2a
          simp only [pyDictSub, Bool.and_eq_true]
          constructor
          · simp only [pyDictMem, pyEq_pstr_iff, beq_self_eq_true, if_true]
            exact hpq
          · refine pyDictSub_cons_right ?_ (ih h1b h2b hnd.2 hftl)
            intro p hp
            have hmem : p.1 ∈ t1.map Prod.fst := List.mem_map_of_mem Prod.fst hp
            rw [h1b] at hmem
            obtain ⟨k, hk1, hk2⟩ := List.mem_map.mp hmem
            refine ⟨k, hk2.symm, ?_⟩
            intro he
            subst he
            exact hnd.1 hk1

theorem jsDictSub_ptwise :
    ∀ {ks : List String} {en1 en2 : List (U × U)},
      en1.map Prod.fst = ks.map pstr → en2.map Prod.fst = ks.map pstr → ks.Nodup →
      List.Forall₂ (fun p q => jsEq p.2 q.2 = true) en1 en2 →
      jsDictSub en1 en2 = true := by
  intro ks
  induction ks with
  | nil =>
    intro en1 en2 h1 _ _ _
    cases en1 with
    | nil => simp [jsDictSub]
    | cons p t => simp at h1
  | cons k0 krest ih =>
    intro en1 en2 h1 h2 hnd hf
    cases en1 with
    | nil => simp at h1
    | cons p1 t1 =>
      cases en2 with
      | nil => simp at h2
      | cons q1 t2 =>
        obtain ⟨p1a, p1v⟩ := p1
        obtain ⟨q1a, q1v⟩ := q1
        simp only [List.map_cons, List.cons.injEq] at h1 h2
        simp only [List.nodup_cons] at hnd
        cases hf with
        | cons hpq hftl =>
          simp only at h1 h2 hpq
          obtain ⟨h1a, h1b⟩ := h1
          obtain ⟨h2a, h2b⟩ := h2
          subst h1a
          subst h2a
          simp only [jsDictSub, Bool.and_eq_true]
          constructor
          · simp only [jsDictMem, jsEq_pstr_iff, beq_self_eq_true, if_true]
            exact hpq
          · refine jsDictSub_cons_right ?_ (ih h1b h2b hnd.2 hftl)
            intro p hp
            have hmem : p.1 ∈ t1.map Prod.fst := List.mem_map_of_mem Prod.fst hp
            rw [h1b] at hmem
            obtain ⟨k, hk1, hk2⟩ := List.mem_map.mp hmem
            refine ⟨k, hk2.symm, ?_⟩
            intro he
            subst he
            exact hnd.1 hk1

theorem entryKeyStrs_eq :
    ∀ {en : List (U × U)} {ks : List String}, entryKeyStrs en = some ks →
      en.map Prod.fst = ks.map pstr := by
  intro en
  induction en with
  | nil =>
    intro ks h
    simp only [entryKeyStrs, Option.some_inj] at h
    subst h
    simp
  | cons hd tl ih =>
    intro ks h
    obtain ⟨a, v⟩ := hd
    cases a <;> simp only [entryKeyStrs] at h <;> try cases h
    rename_i k
    match hrest : entryKeyStrs tl with
    | none => rw [hrest] at h; cases h
    | some ks2 =>
      rw [hrest] at h
      have h2 : k :: ks2 = ks := by
        simpa using h
      subst h2
      simp only [List.map_cons]
      rw [ih hrest]

theorem pyIsInstance_canon {T v : U} (hne : nonEnumHead T = true)
    (hw : WellTyped T v = true) : pyIsInstance (canon v) T = true := by
  cases T with
  | tint => cases v <;> simp_all [WellTyped, canon, pyIsInstance]
  | tfloat => cases v <;> simp_all [WellTyped, canon, pyIsInstance]
  | tbool => cases v <;> simp_all [WellTyped, canon, pyIsInstance]
  | tstr => cases v <;> simp_all [WellTyped, canon, pyIsInstance]
  | tlist E =>
    cases v <;> try (simp [WellTyped] at hw; done)
    rename_i o lvl es
    cases o with
    | none => simp [WellTyped] at hw
    | some E2 =>
      simp only [WellTyped, Bool.and_eq_true, decide_eq_true_eq] at hw
      obtain ⟨⟨hE, _⟩, _⟩ := hw
      subst hE
      simp [canon, pyIsInstance]
  | tdict E =>
    cases v <;> try (simp [WellTyped] at hw; done)
    rename_i o lvl en
    cases o with
    | none => simp [WellTyped] at hw
    | some E2 =>
      simp only [WellTyped, Bool.and_eq_true, decide_eq_true_eq] at hw
      obtain ⟨⟨⟨hE, _⟩, _⟩, _⟩ := hw
      subst hE
      simp [canon, pyIsInstance]
  | tobj nm attrs =>
    cases v <;> try (simp [WellTyped] at hw; done)
    rename_i ty vals
    simp only [WellTyped, Bool.and_eq_true, decide_eq_true_eq] at hw
    obtain ⟨⟨hty, _⟩, _⟩ := hw
    subst hty
    simp [canon, pyIsInstance]
  | tenum nm members => simp [nonEnumHead] at hne
  | pnone => cases v <;> simp [WellTyped] at hw
  | pbool b => cases v <;> simp [WellTyped] at hw
  | pint n => cases v <;> simp [WellTyped] at hw
  | pfloat q => cases v <;> simp [WellTyped] at hw
  | pstr st => cases v <;> simp [WellTyped] at hw
  | plist o l es => cases v <;> simp [WellTyped] at hw
  | pdict o l en => cases v <;> simp [WellTyped] at hw
  | pobj ty vals => cases v <;> simp [WellTyped] at hw
  | pmember e n x => cases v <;> simp [WellTyped] at hw

theorem schema_shape {T sch : U} (h : schema T = .ok sch) :
    ∃ en, sch = pdict none 0 en := by
  cases T with
  | tint =>
    simp only [schema, Except.ok.injEq] at h
    exact ⟨_, h.symm⟩
  | tfloat =>
    simp only [schema, Except.ok.injEq] at h
    exact ⟨_, h.symm⟩
  | tbool =>
    simp only [schema, Except.ok.injEq] at h
    exact ⟨_, h.symm⟩
  | tstr =>
    simp only [schema, Except.ok.injEq] at h
    exact ⟨_, h.symm⟩
  | tlist E =>
    simp only [schema] at h
    match hs : schema E with
    | .error e => rw [hs] at h; cases h
    | .ok s =>
      rw [hs] at h
      rw [exbind_ok] at h
      cases h
      exact ⟨_, rfl⟩
  | tdict E =>
    simp only [schema] at h
    match hs : schema E with
    | .error e => rw [hs] at h; cases h
    | .ok s =>
      rw [hs] at h
      rw [exbind_ok] at h
      cases h
      exact ⟨_, rfl⟩
  | tobj nm attrs =>
    simp only [schema] at h
    match hs : schemaProps attrs with
    | .error e => rw [hs] at h; cases h
    | .ok sprops =>
      rw [hs] at h
      rw [exbind_ok] at h
      cases h
      exact ⟨_, rfl⟩
  | tenum nm members =>
    simp only [schema] at h
    match hs : serializeMemberVals members with
    | .error e => rw [hs] at h; cases h
    | .ok lits =>
      rw [hs] at h
      rw [exbind_ok] at h
      cases h
      exact ⟨_, rfl⟩
  | pnone => simp [schema] at h
  | pbool b => simp [schema] at h
  | pint n => simp [schema] at h
  | pfloat q => simp [schema] at h
  | pstr st => simp [schema] at h
  | plist o l es => simp [schema] at h
  | pdict o l en => simp [schema] at h
  | pobj ty vals => simp [schema] at h
  | pmember e n x => simp [schema] at h

theorem schema_tobj_extra {nm : String} {attrs : List (String × U × Bool)} {sch : U}
    (hsch : schema (tobj nm attrs) = .ok sch) :
    schemaGet "enum" sch = none ∧ schemaGet "items" sch = none := by
  simp only [schema] at hsch
  match hp : schemaProps attrs with
  | .error e => rw [hp] at hsch; cases hsch
  | .ok sprops =>
    rw [hp] at hsch
    rw [exbind_ok] at hsch
    cases hsch
    cases hreq : requiredNames attrs <;> simp [schemaGet, entGet, hreq]

theorem validateProps_trivial {sch : U}
    (hp : schemaGet "properties" sch = none)
    (ha : schemaGet "additionalProperties" sch = none) :
    ∀ (entries : List (U × U)), validateProps sch entries = true := by
  intro entries
  induction entries with
  | nil => simp [validateProps]
  | cons hd tl ih =>
    obtain ⟨k, v⟩ := hd
    simp only [validateProps, Bool.and_eq_true]
    have hadd : validAdditional sch v = true := by
      simp only [validAdditional]
      split
      · rfl
      · rename_i heq
        rw [ha] at heq
        cases heq
      · rename_i heq
        rw [ha] at heq
        cases heq
    have hpec : propEntryCheck sch k v = true := by
      cases k <;> simp only [propEntryCheck] <;> try exact hadd
      split
      · rename_i heq
        rw [hp] at heq
        cases heq
      · exact hadd
    exact ⟨hpec, ih⟩

theorem serializeMemberVals_ok :
    ∀ {members : List (String × U)}, (∀ p ∈ members, (serialize p.2).isOk = true) →
      ∃ lits, serializeMemberVals members = .ok lits := by
  intro members
  induction members with
  | nil => intro _; exact ⟨[], rfl⟩
  | cons hd tl ih =>
    intro h
    obtain ⟨n1, v1⟩ := hd
    have h1 : (serialize v1).isOk = true := h (n1, v1) (by simp)
    match hs : serialize v1 with
    | .error e =>
      rw [hs] at h1
      simp [Except.isOk, Except.toBool] at h1
    | .ok s =>
      obtain ⟨lits, hl⟩ := ih (fun p hp => h p (by simp [hp]))
      exact ⟨s :: lits, by simp [serializeMemberVals, hs, hl, exbind_ok]⟩

theorem serializeMemberVals_mem {mname : String} {mval s : U} :
    ∀ {members : List (String × U)} {lits : List U},
      serializeMemberVals members = .ok lits → (mname, mval) ∈ members →
      serialize mval = .ok s → s ∈ lits := by
  intro members
  induction members with
  | nil => intro lits _ hm _; simp at hm
  | cons hd tl ih =>
    intro lits hser hm hs
    obtain ⟨n1, v1⟩ := hd
    simp only [serializeMemberVals] at hser
    match h1 : serialize v1 with
    | .error e => rw [h1] at hser; cases hser
    | .ok s1 =>
      rw [h1] at hser
      rw [exbind_ok] at hser
      match h2 : serializeMemberVals tl with
      | .error e => rw [h2] at hser; cases hser
      | .ok tail =>
        rw [h2] at hser
        rw [exbind_ok] at hser
        cases hser
        rcases List.mem_cons.mp hm with he | hm2
        · cases he
          rw [h1] at hs
          cases hs
          simp
        · simp [ih h2 hm2 hs]

theorem valueMapGet_unique {s mval : U} {mname : String} :
    ∀ {members : List (String × U)},
      members.countP (fun q => pyEq q.2 s) = 1 →
      (mname, mval) ∈ members → pyEq mval s = true → hashable mval = true →
      valueMapGet s members = some (mname, mval) := by
  intro members
  induction members with
  | nil => intro _ hm _ _; simp at hm
  | cons hd tl ih =>
    intro hc hm hq hh
    obtain ⟨n1, v1⟩ := hd
    by_cases h1 : pyEq v1 s = true
    · have hc0 : ∀ (a : String) (b : U), (a, b) ∈ tl → pyEq b s = false := by
        simp [List.countP_cons, h1] at hc
        exact hc
      have hhead : (n1, v1) = (mname, mval) := by
        rcases List.mem_cons.mp hm with he | hm2
        · exact he.symm
        · exfalso
          have h0 := hc0 mname mval hm2
          rw [h0] at hq
          cases hq
      cases hhead
      simp [valueMapGet, h1, hh]
    · have hm2 : (mname, mval) ∈ tl := by
        rcases List.mem_cons.mp hm with he | hm2
        · exfalso
          cases he
          exact h1 hq
        · exact hm2
      have hc1 : tl.countP (fun q => pyEq q.2 s) = 1 := by
        simp [List.countP_cons, h1] at hc
        exact hc
      have hcond : (hashable v1 && pyEq v1 s) = false := by
        cases hpe : pyEq v1 s
        · simp
        · exact absurd hpe h1
      simp only [valueMapGet, hcond, Bool.false_eq_true, if_false]
      exact ih hc1 hm2 hq hh

theorem scanMembers_unique {ety s mval : U} {mname : String} :
    ∀ {members : List (String × U)},
      members.countP (fun q => pyEq q.2 s) = 1 →
      (mname, mval) ∈ members → pyEq mval s = true →
      scanMembers ety s members = .ok (pmember ety mname mval) := by
  intro members
  induction members with
  | nil => intro _ hm _; simp at hm
  | cons hd tl ih =>
    intro hc hm hq
    obtain ⟨n1, v1⟩ := hd
    by_cases h1 : pyEq v1 s = true
    · have hc0 : ∀ (a : String) (b : U), (a, b) ∈ tl → pyEq b s = false := by
        simp [List.countP_cons, h1] at hc
        exact hc
      have hhead : (n1, v1) = (mname, mval) := by
        rcases List.mem_cons.mp hm with he | hm2
        · exact he.symm
        · exfalso
          have h0 := hc0 mname mval hm2
          rw [h0] at hq
          cases hq
      cases hhead
      simp [scanMembers, h1]
    · have hm2 : (mname, mval) ∈ tl := by
        rcases List.mem_cons.mp hm with he | hm2
        · exfalso
          cases he
          exact h1 hq
        · exact hm2
      have hc1 : tl.countP (fun q => pyEq q.2 s) = 1 := by
        simp [List.countP_cons, h1] at hc
        exact hc
      simp only [scanMembers, h1, Bool.false_eq_true, if_false]
      exact ih hc1 hm2 hq

theorem from_value_unique {nm mname : String} {members : List (String × U)}
    {mval s : U}
    (hc : members.countP (fun q => pyEq q.2 s) = 1)
    (hm : (mname, mval) ∈ members) (hq : pyEq mval s = true) :
    from_value (tenum nm members) s = .ok (pmember (tenum nm members) mname mval) := by
  by_cases hh : hashable s = true
  · have hmv : hashable mval = true := pyEq_hashable hq hh
    simp [from_value, hh, valueMapGet_unique hc hm hq hmv]
  · simp only [from_value, hh, Bool.false_eq_true, if_false]
    exact scanMembers_unique hc hm hq

theorem canonPairs_fst : ∀ (en : List (U × U)), (canonPairs en).map Prod.fst = en.map Prod.fst := by
  intro en
  induction en with
  | nil => simp [canonPairs]
  | cons hd tl ih =>
    obtain ⟨k, v⟩ := hd
    simp [canonPairs, ih]

theorem lookupStr_canonNamed {n : String} :
    ∀ (vals : List (String × U)),
      lookupStr n (canonNamed vals) = (lookupStr n vals).map canon := by
  intro vals
  induction vals with
  | nil => simp [canonNamed, lookupStr]
  | cons hd tl ih =>
    obtain ⟨k, v⟩ := hd
    by_cases hk : k = n
    · simp [canonNamed, lookupStr, hk]
    · simp only [canonNamed, lookupStr, if_neg hk]
      exact ih

theorem WellTypedAttrs_lookups :
    ∀ {attrs : List (String × U × Bool)} {vals : List (String × U)},
      WellTypedAttrs attrs vals = true → (attrs.map Prod.fst).Nodup →
      ∀ p ∈ attrs, ∃ x, lookupStr p.1 vals = some x ∧
        (if p.2.2 then isPnone x || WellTyped p.2.1 x else WellTyped p.2.1 x) = true ∧
        nonEnumHead p.2.1 = true := by
  intro attrs
  induction attrs with
  | nil => intro vals _ _ p hp; simp at hp
  | cons a arest ih =>
    intro vals hw hnd p hp
    obtain ⟨n1, aty, opt⟩ := a
    cases vals with
    | nil => simp [WellTypedAttrs] at hw
    | cons w vrest =>
      obtain ⟨n2, x⟩ := w
      simp only [WellTypedAttrs, Bool.and_eq_true, beq_iff_eq] at hw
      obtain ⟨⟨⟨hn, hne⟩, hchk⟩, hwrest⟩ := hw
      subst hn
      simp only [List.map_cons, List.nodup_cons] at hnd
      rcases List.mem_cons.mp hp with he | hm
      · subst he
        refine ⟨x, ?_, hchk, hne⟩
        simp [lookupStr]
      · obtain ⟨x2, hlk, hifo, hneh⟩ := ih hwrest hnd.2 p hm
        refine ⟨x2, ?_, hifo, hneh⟩
        have hpn : n1 ≠ p.1 := by
          intro he2
          apply hnd.1
          rw [he2]
          exact List.mem_map_of_mem Prod.fst hm
        simp only [lookupStr, if_neg hpn]
        exact hlk

theorem enumValSafe_facts :
    ∀ (n : Nat) (v : U), sizeOf v ≤ n → enumValSafe v = true →
      ∃ s, serialize v = .ok s ∧ pyEq v s = true ∧ jsEq s s = true ∧ pyEq v v = true := by
  intro n
  induction n with
  | zero =>
    intro v h
    exfalso
    have := sizeOf_pos v
    omega
  | succ n ih =>
    intro v hs hsafe
    cases v with
    | pbool b =>
      exact ⟨pbool b, by simp [serialize], by simp [pyEq, asNum], by simp [jsEq],
        by simp [pyEq, asNum]⟩
    | pint m =>
      exact ⟨pint m, by simp [serialize], by simp [pyEq, asNum], by simp [jsEq, asNum],
        by simp [pyEq, asNum]⟩
    | pfloat q =>
      exact ⟨pfloat q, by simp [serialize], by simp [pyEq, asNum], by simp [jsEq, asNum],
        by simp [pyEq, asNum]⟩
    | pstr st =>
      exact ⟨pstr st, by simp [serialize], by simp [pyEq, asNum], by simp [jsEq, asNum],
        by simp [pyEq, asNum]⟩
    | plist o lvl es =>
      cases o with
      | none => simp [enumValSafe] at hsafe
      | some E =>
        simp only [enumValSafe] at hsafe
        have hlist : ∀ (es2 : List U), sizeOf es2 ≤ sizeOf es → enumValSafeList es2 = true →
            ∃ ss, serializeList es2 = .ok ss ∧ pyEqList es2 ss = true ∧
              jsEqList ss ss = true ∧ pyEqList es2 es2 = true := by
          intro es2
          induction es2 with
          | nil =>
            intro _ _
            exact ⟨[], by simp [serializeList], by simp [pyEqList], by simp [jsEqList],
              by simp [pyEqList]⟩
          | cons x rest ihl =>
            intro hsz hsafe2
            simp only [enumValSafeList, Bool.and_eq_true] at hsafe2
            have hxn : sizeOf x ≤ n := by
              simp at hsz hs
              omega
            obtain ⟨sx, hsx, hpx, hjx, hrx⟩ := ih x hxn hsafe2.1
            obtain ⟨ss, hss, hps, hjs, hrs⟩ := ihl (by simp at hsz ⊢; omega) hsafe2.2
            exact ⟨sx :: ss, by simp [serializeList, hsx, hss, exbind_ok],
              by simp [pyEqList, hpx, hps], by simp [jsEqList, hjx, hjs],
              by simp [pyEqList, hrx, hrs]⟩
        obtain ⟨ss, hss, hps, hjs, hrs⟩ := hlist es le_rfl hsafe
        refine ⟨plist none 0 ss, ?_, ?_, ?_, ?_⟩
        · simp [serialize, hss, exbind_ok]
        · simp [pyEq, asNum, hps]
        · simp [jsEq, asNum, hjs]
        · simp [pyEq, asNum, hrs]
    | pdict o lvl en =>
      cases o with
      | none => simp [enumValSafe] at hsafe
      | some E =>
        simp only [enumValSafe, Bool.and_eq_true] at hsafe
        obtain ⟨hnodup, hvals⟩ := hsafe
        have hdict : ∀ (en2 : List (U × U)), sizeOf en2 ≤ sizeOf en →
            enumValSafeVals en2 = true →
            ∃ sen, serializeDictVals en2 = .ok sen ∧
              sen.map Prod.fst = en2.map Prod.fst ∧
              List.Forall₂ (fun p q => pyEq p.2 q.2 = true) en2 sen ∧
              (∀ q ∈ sen, jsEq q.2 q.2 = true) ∧
              (∀ p ∈ en2, pyEq p.2 p.2 = true) := by
          intro en2
          induction en2 with
          | nil =>
            intro _ _
            exact ⟨[], by simp [serializeDictVals], rfl, List.Forall₂.nil, by simp, by simp⟩
          | cons p rest ihl =>
            intro hsz hsafe2
            obtain ⟨k, x⟩ := p
            simp only [enumValSafeVals, Bool.and_eq_true] at hsafe2
            have hxn : sizeOf x ≤ n := by
              simp at hsz hs
              omega
            obtain ⟨sx, hsx, hpx, hjx, hrx⟩ := ih x hxn hsafe2.1
            obtain ⟨sen, hsen, hfst, hfor, hjall, hrall⟩ :=
              ihl (by simp at hsz ⊢; omega) hsafe2.2
            refine ⟨(k, sx) :: sen, by simp [serializeDictVals, hsx, hsen, exbind_ok],
              by simp [hfst], List.Forall₂.cons hpx hfor, ?_, ?_⟩
            · intro q hq
              rcases List.mem_cons.mp hq with he | hm
              · rw [he]
                exact hjx
              · exact hjall q hm
            · intro q hq
              rcases List.mem_cons.mp hq with he | hm
              · rw [he]
                exact hrx
              · exact hrall q hm
        obtain ⟨sen, hsen, hfst, hfor, hjall, hrall⟩ := hdict en le_rfl hvals
        have hks : ∃ ks, entryKeyStrs en = some ks ∧ ks.Nodup := by
          simp only [strNodupKeys] at hnodup
          split at hnodup
          · rename_i ks hke
            exact ⟨ks, hke, by simpa using hnodup⟩
          · cases hnodup
        obtain ⟨ks, hke, hknd⟩ := hks
        have henks : en.map Prod.fst = ks.map pstr := entryKeyStrs_eq hke
        have hsenks : sen.map Prod.fst = ks.map pstr := by rw [hfst, henks]
        have hlen : en.length = sen.length := by
          have := congrArg List.length hfst
          simpa using this.symm
        refine ⟨pdict none 0 sen, ?_, ?_, ?_, ?_⟩
        · simp [serialize, hsen, exbind_ok]
        · simp only [pyEq, asNum]
          simp only [Bool.and_eq_true, beq_iff_eq]
          exact ⟨hlen, pyDictSub_ptwise henks hsenks hknd hfor⟩
        · simp only [jsEq, asNum]
          simp only [Bool.and_eq_true, beq_iff_eq]
          refine ⟨by trivial, jsDictSub_ptwise hsenks hsenks hknd ?_⟩
          exact (List.forall₂_same).mpr (fun q hq => hjall q hq)
        · simp only [pyEq, asNum]
          simp only [Bool.and_eq_true, beq_iff_eq]
          refine ⟨by trivial, pyDictSub_ptwise henks henks hknd ?_⟩
          exact (List.forall₂_same).mpr (fun p hp => hrall p hp)
    | pnone => simp [enumValSafe] at hsafe
    | tint => simp [enumValSafe] at hsafe
    | tfloat => simp [enumValSafe] at hsafe
    | tbool => simp [enumValSafe] at hsafe
    | tstr => simp [enumValSafe] at hsafe
    | tlist E => simp [enumValSafe] at hsafe
    | tdict E => simp [enumValSafe] at hsafe
    | tobj nm attrs => simp [enumValSafe] at hsafe
    | tenum nm members => simp [enumValSafe] at hsafe
    | pobj ty vals => simp [enumValSafe] at hsafe
    | pmember e nm x => simp [enumValSafe] at hsafe

theorem pyEqObjAttrs_of_lookups {vals : List (String × U)} :
    ∀ {attrs2 : List (String × U × Bool)},
      (∀ p ∈ attrs2, ∃ x, lookupStr p.1 vals = some x ∧ pyEq (canon x) x = true) →
      pyEqObjAttrs attrs2 (canonNamed vals) vals = true := by
  intro attrs2
  induction attrs2 with
  | nil => intro _; simp [pyEqObjAttrs]
  | cons a arest ih =>
    intro h
    obtain ⟨name, t, o⟩ := a
    obtain ⟨x, hlk, hpx⟩ := h (name, t, o) (by simp)
    simp only at hlk
    have hlk2 : lookupStr name (canonNamed vals) = some (canon x) := by
      rw [lookupStr_canonNamed, hlk]
      rfl
    simp only [pyEqObjAttrs]
    split
    · rename_i x1 x2 h1 h2
      rw [hlk2] at h1
      rw [hlk] at h2
      rw [Option.some_inj] at h1 h2
      subst h1
      subst h2
      simp only [Bool.and_eq_true]
      exact ⟨hpx, ih (fun p hp => h p (by simp [hp]))⟩
    · rename_i hcontra
      exact (hcontra (canon x) x hlk2 hlk).elim

theorem pyEq_canon :
    ∀ (n : Nat) (v : U), sizeOf v ≤ n → ∀ (T : U), WellTyped T v = true →
      pyEq (canon v) v = true := by
  intro n
  induction n with
  | zero =>
    intro v h
    exfalso
    have := sizeOf_pos v
    omega
  | succ n ih =>
    intro v hs T hw
    cases T with
    | tint =>
      cases v <;> try (simp [WellTyped] at hw; done)
      simp [canon, pyEq, asNum]
    | tfloat =>
      cases v <;> try (simp [WellTyped] at hw; done)
      simp [canon, pyEq, asNum]
    | tbool =>
      cases v <;> try (simp [WellTyped] at hw; done)
      simp [canon, pyEq, asNum]
    | tstr =>
      cases v <;> try (simp [WellTyped] at hw; done)
      simp [canon, pyEq, asNum]
    | tlist E =>
      cases v <;> try (simp [WellTyped] at hw; done)
      rename_i o lvl es
      cases o with
      | none => simp [WellTyped] at hw
      | some E2 =>
        simp only [WellTyped, Bool.and_eq_true, decide_eq_true_eq] at hw
        obtain ⟨⟨hE, _⟩, hwl⟩ := hw
        subst hE
        have hlist : ∀ (es2 : List U), sizeOf es2 ≤ sizeOf es → WellTypedList E2 es2 = true →
            pyEqList (canonList es2) es2 = true := by
          intro es2
          induction es2 with
          | nil => intro _ _; simp [canonList, pyEqList]
          | cons x rest ihl =>
            intro hsz hwl2
            simp only [WellTypedList, Bool.and_eq_true] at hwl2
            have hx := ih x (by simp at hsz hs; omega) E2 hwl2.1
            simp only [canonList, pyEqList]
            simp [hx, ihl (by simp at hsz ⊢; omega) hwl2.2]
        simp only [canon, pyEq, asNum]
        simp [hlist es le_rfl hwl]
    | tdict E =>
      cases v <;> try (simp [WellTyped] at hw; done)
      rename_i o lvl en
      cases o with
      | none => simp [WellTyped] at hw
      | some E2 =>
        simp only [WellTyped, Bool.and_eq_true, decide_eq_true_eq] at hw
        obtain ⟨⟨⟨hE, _⟩, hnk⟩, hwv⟩ := hw
        subst hE
        have hdict : ∀ (en2 : List (U × U)), sizeOf en2 ≤ sizeOf en →
            WellTypedVals E2 en2 = true →
            List.Forall₂ (fun p q => pyEq p.2 q.2 = true) (canonPairs en2) en2 := by
          intro en2
          induction en2 with
          | nil =>
            intro _ _
            simp only [canonPairs]
            exact List.Forall₂.nil
          | cons p rest ihl =>
            intro hsz hwv2
            obtain ⟨k, x⟩ := p
            simp only [WellTypedVals, Bool.and_eq_true] at hwv2
            have hx := ih x (by simp at hsz hs; omega) E2 hwv2.1
            simp only [canonPairs]
            exact List.Forall₂.cons hx (ihl (by simp at hsz ⊢; omega) hwv2.2)
        have hks : ∃ ks, entryKeyStrs en = some ks ∧ ks.Nodup := by
          simp only [strNodupKeys] at hnk
          split at hnk
          · rename_i ks hke
            exact ⟨ks, hke, by simpa using hnk⟩
          · cases hnk
        obtain ⟨ks, hke, hknd⟩ := hks
        have henks : en.map Prod.fst = ks.map pstr := entryKeyStrs_eq hke
        have hcnks : (canonPairs en).map Prod.fst = ks.map pstr := by
          rw [canonPairs_fst, henks]
        have hlen : (canonPairs en).length = en.length := by
          have := congrArg List.length (canonPairs_fst en)
          simpa using this
        simp only [canon, pyEq, asNum]
        simp only [Bool.and_eq_true, beq_iff_eq]
        exact ⟨hlen, pyDictSub_ptwise hcnks henks hknd (hdict en le_rfl hwv)⟩
    | tobj nm attrs =>
      cases v <;> try (simp [WellTyped] at hw; done)
      rename_i ty vals
      simp only [WellTyped, Bool.and_eq_true, decide_eq_true_eq] at hw
      obtain ⟨⟨hty, hnodup⟩, hwa⟩ := hw
      subst hty
      have hobj : pyEqObjAttrs attrs (canonNamed vals) vals = true := by
        refine pyEqObjAttrs_of_lookups ?_
        intro p hp
        obtain ⟨x, hlk, hif, hneh⟩ := WellTypedAttrs_lookups hwa hnodup p hp
        refine ⟨x, hlk, ?_⟩
        have hxsz : sizeOf x ≤ n := by
          have := sizeOf_lookupStr hlk
          simp at hs
          omega
        by_cases hox : isPnone x = true
        · rw [isPnone_eq hox]
          simp [canon, pyEq, asNum]
        · have hwx : WellTyped p.2.1 x = true := by
            by_cases ho : p.2.2 = true
            · rw [ho] at hif
              simp only [if_true, Bool.or_eq_true] at hif
              rcases hif with h1 | h1
              · exact absurd h1 hox
              · exact h1
            · rw [Bool.not_eq_true] at ho
              rw [ho] at hif
              simpa using hif
          exact ih x hxsz p.2.1 hwx
      simp only [canon, pyEq, asNum]
      simp [hobj]
    | tenum nm members =>
      cases v <;> try (simp [WellTyped] at hw; done)
      rename_i ety mname mval
      simp only [WellTyped, Bool.and_eq_true, decide_eq_true_eq] at hw
      obtain ⟨⟨hety, hshape⟩, hlk⟩ := hw
      have hmem : (mname, mval) ∈ members := lookupStr_mem hlk
      simp only [enumShapeSafe, Bool.and_eq_true] at hshape
      have hsafe : enumValSafe mval = true := by
        have := List.all_eq_true.mp hshape.1.2 (mname, mval) hmem
        simpa using this
      obtain ⟨s, _, _, _, hrefl⟩ := enumValSafe_facts (sizeOf mval) mval le_rfl hsafe
      simp only [canon, pyEq, asNum]
      simp [hrefl]
    | pnone => cases v <;> simp [WellTyped] at hw
    | pbool b => cases v <;> simp [WellTyped] at hw
    | pint m => cases v <;> simp [WellTyped] at hw
    | pfloat q => cases v <;> simp [WellTyped] at hw
    | pstr st => cases v <;> simp [WellTyped] at hw
    | plist o l es => cases v <;> simp [WellTyped] at hw
    | pdict o l en => cases v <;> simp [WellTyped] at hw
    | pobj ty vals => cases v <;> simp [WellTyped] at hw
    | pmember e nm2 x => cases v <;> simp [WellTyped] at hw

theorem schemaProps_isOk :
    ∀ {attrs : List (String × U × Bool)},
      (∀ p ∈ attrs, ∃ s, schema p.2.1 = .ok s) →
      ∃ sprops, schemaProps attrs = .ok sprops := by
  intro attrs
  induction attrs with
  | nil => intro _; exact ⟨[], by simp [schemaProps]⟩
  | cons a arest ih =>
    intro h
    obtain ⟨name, ty, o⟩ := a
    obtain ⟨s, hsty⟩ := h (name, ty, o) (by simp)
    obtain ⟨tail, htl⟩ := ih (fun p hp => h p (by simp [hp]))
    refine ⟨(pstr name, s) :: tail, ?_⟩
    simp only at hsty
    simp [schemaProps, hsty, htl, exbind_ok]

theorem schema_isOk_of_tyOK :
    ∀ (n : Nat) (T : U), sizeOf T ≤ n → tyOK T = true → ∃ sch, schema T = .ok sch := by
  intro n
  induction n with
  | zero =>
    intro T h
    exfalso
    have := sizeOf_pos T
    omega
  | succ n ih =>
    intro T hs hok
    cases T with
    | tint =>
      exact ⟨pdict none 0 [(pstr "type", pstr "number")], by simp [schema]⟩
    | tfloat =>
      exact ⟨pdict none 0 [(pstr "type", pstr "number")], by simp [schema]⟩
    | tbool =>
      exact ⟨pdict none 0 [(pstr "type", pstr "boolean")], by simp [schema]⟩
    | tstr =>
      exact ⟨pdict none 0 [(pstr "type", pstr "string")], by simp [schema]⟩
    | tlist E =>
      simp only [tyOK] at hok
      obtain ⟨s, hsE⟩ := ih E (by simp at hs; omega) hok
      exact ⟨pdict none 0 [(pstr "type", pstr "array"), (pstr "items", s)],
        by simp [schema, hsE, exbind_ok]⟩
    | tdict E =>
      simp only [tyOK] at hok
      obtain ⟨s, hsE⟩ := ih E (by simp at hs; omega) hok
      exact ⟨pdict none 0 [(pstr "type", pstr "object"), (pstr "additionalProperties", s)],
        by simp [schema, hsE, exbind_ok]⟩
    | tobj nm attrs =>
      simp only [tyOK] at hok
      have h : ∀ p ∈ attrs, ∃ s, schema p.2.1 = .ok s := by
        intro p hp
        obtain ⟨pn, pt, po⟩ := p
        have hp2 : tyOK pt = true := tyOKAttrs_mem hok hp
        simp only
        refine ih pt ?_ hp2
        have h1 := List.sizeOf_lt_of_mem hp
        simp at hs h1 ⊢
        omega
      obtain ⟨sprops, hsp⟩ := schemaProps_isOk h
      refine ⟨pdict none 0 (
        [(pstr "type", pstr "object"),
         (pstr "properties", pdict none 0 sprops),
         (pstr "additionalProperties", pbool false)] ++
        (match requiredNames attrs with
         | [] => []
         | req => [(pstr "required", plist none 0 (req.map pstr))])), ?_⟩
      simp [schema, hsp, exbind_ok]
    | tenum nm members =>
      simp only [tyOK] at hok
      have hall : ∀ p ∈ members, (serialize p.2).isOk = true := by
        intro p hp
        simpa using List.all_eq_true.mp hok p hp
      obtain ⟨lits, hl⟩ := serializeMemberVals_ok hall
      exact ⟨pdict none 0 [(pstr "enum", plist none 0 lits)],
        by simp [schema, hl, exbind_ok]⟩
    | pnone => simp [tyOK] at hok
    | pbool b => simp [tyOK] at hok
    | pint m => simp [tyOK] at hok
    | pfloat q => simp [tyOK] at hok
    | pstr st => simp [tyOK] at hok
    | plist o l es => simp [tyOK] at hok
    | pdict o l en => simp [tyOK] at hok
    | pobj ty vals => simp [tyOK] at hok
    | pmember e nm2 x => simp [tyOK] at hok

theorem deserializeList_chain {E schE : U} :
    ∀ {es : List U},
      (∀ x ∈ es, ∃ sx, serialize x = .ok sx ∧ validate sx schE = true ∧
        deserialize sx E = .ok (canon x) ∧ check_type E (canon x) = true) →
      ∃ ss, serializeList es = .ok ss ∧ validateAll schE ss = true ∧
        deserializeList ss E = .ok (canonList es) ∧
        (canonList es).all (fun r => check_type E r) = true := by
  intro es
  induction es with
  | nil =>
    intro _
    exact ⟨[], by simp [serializeList], by simp [validateAll],
      by simp [deserializeList, canonList], by simp [canonList]⟩
  | cons x rest ih =>
    intro h
    obtain ⟨sx, hsx, hvx, hdx, hcx⟩ := h x (by simp)
    obtain ⟨ss, hss, hvs, hds, hcs⟩ := ih (fun y hy => h y (by simp [hy]))
    refine ⟨sx :: ss, ?_, ?_, ?_, ?_⟩
    · simp [serializeList, hsx, hss, exbind_ok]
    · simp [validateAll, hvx, hvs]
    · simp [deserializeList, canonList, hdx, hds, exbind_ok]
    · simp [canonList, hcx, hcs]

theorem deserializeDictVals_chain {E schD schE : U} {aen : List (U × U)}
    (hpr : schemaGet "properties" schD = none)
    (hap : schemaGet "additionalProperties" schD = some schE)
    (hshape : schE = pdict none 0 aen) :
    ∀ {en : List (U × U)},
      (∀ p ∈ en, isStrVal p.1 = true ∧ ∃ sx, serialize p.2 = .ok sx ∧
        validate sx schE = true ∧ deserialize sx E = .ok (canon p.2) ∧
        check_type E (canon p.2) = true) →
      ∃ sen, serializeDictVals en = .ok sen ∧
        sen.map Prod.fst = en.map Prod.fst ∧
        validateProps schD sen = true ∧
        deserializeDictVals sen E = .ok (canonPairs en) ∧
        dictCheckEntries E (canonPairs en) = .ok () := by
  intro en
  induction en with
  | nil =>
    intro _
    exact ⟨[], by simp [serializeDictVals], rfl, by simp [validateProps],
      by simp [deserializeDictVals, canonPairs], by simp [canonPairs, dictCheckEntries]⟩
  | cons p rest ih =>
    intro h
    obtain ⟨k, x⟩ := p
    obtain ⟨hk, sx, hsx, hvx, hdx, hcx⟩ := h (k, x) (by simp)
    obtain ⟨sen, hsen, hfst, hvp, hdd, hdc⟩ := ih (fun q hq => h q (by simp [hq]))
    simp only at hk hsx hvx hdx hcx
    have hval : validAdditional schD sx = true := by
      simp only [validAdditional]
      split
      · rename_i heq
        have h2 := hap.symm.trans heq
        cases h2
      · rename_i b heq
        have h2 := hap.symm.trans heq
        have h3 : schE = pbool b := by injection h2
        rw [hshape] at h3
        cases h3
      · rename_i asch hnb heq
        have h2 := hap.symm.trans heq
        have h3 : schE = asch := by injection h2
        rw [← h3]
        exact hvx
    have hpec : propEntryCheck schD k sx = true := by
      cases k <;> simp only [propEntryCheck] <;> try exact hval
      split
      · rename_i heq
        rw [hpr] at heq
        cases heq
      · exact hval
    refine ⟨(k, sx) :: sen, ?_, ?_, ?_, ?_, ?_⟩
    · simp [serializeDictVals, hsx, hsen, exbind_ok]
    · simp [hfst]
    · simp only [validateProps, Bool.and_eq_true]
      exact ⟨hpec, hvp⟩
    · simp [deserializeDictVals, canonPairs, hdx, hdd, exbind_ok]
    · simp only [canonPairs, dictCheckEntries]
      simp [hk, hcx, hdc]

theorem dictHasKey_cons {rn : String} {o : Option U} {lvl : Nat} {q : U × U}
    {props : List (U × U)}
    (h : dictHasKey rn (pdict o lvl props) = true) :
    dictHasKey rn (pdict o lvl (q :: props)) = true := by
  simp only [dictHasKey, List.any_cons, Bool.or_eq_true] at h ⊢
  exact Or.inr h

theorem unusedKeys_nil_of_sub {kwargs : List (String × U)} {attrs : List (String × U × Bool)}
    (h : ∀ q ∈ kwargs, q.1 ∈ attrs.map Prod.fst) : unusedKeys kwargs attrs = [] := by
  simp only [unusedKeys]
  rw [List.filter_eq_nil_iff]
  intro k hk
  obtain ⟨q, hq, hq2⟩ := List.mem_map.mp hk
  subst hq2
  have hsome := mem_lookupAttr_isSome (h q hq)
  cases hlk : lookupAttr q.1 attrs with
  | none =>
    rw [hlk] at hsome
    simp at hsome
  | some w => simp [hlk]

theorem initAttrs_round {kwargs : List (String × U)} :
    ∀ {attrs : List (String × U × Bool)} {vals : List (String × U)},
      (attrs.map Prod.fst).Nodup →
      WellTypedAttrs attrs vals = true →
      (∀ p ∈ attrs, ∃ x, lookupStr p.1 vals = some x ∧
        lookupStr p.1 kwargs = (if isPnone x && p.2.2 then none else some (canon x)) ∧
        ((isPnone x && p.2.2) = false → attr_check p.2.1 p.2.2 (canon x) = true)) →
      initAttrs attrs kwargs = .ok (canonNamed vals) := by
  intro attrs
  induction attrs with
  | nil =>
    intro vals _ hw _
    cases vals with
    | nil => simp [initAttrs, canonNamed]
    | cons w vrest => simp [WellTypedAttrs] at hw
  | cons a arest ih =>
    intro vals hnd hw h
    obtain ⟨name, aty, opt⟩ := a
    cases vals with
    | nil => simp [WellTypedAttrs] at hw
    | cons w vrest =>
      obtain ⟨n2, x0⟩ := w
      simp only [WellTypedAttrs, Bool.and_eq_true, beq_iff_eq] at hw
      obtain ⟨⟨⟨hn, hne⟩, hchk⟩, hwrest⟩ := hw
      subst hn
      simp only [List.map_cons, List.nodup_cons] at hnd
      obtain ⟨x, hlkv, hlkk, hac⟩ := h (name, aty, opt) (by simp)
      simp only at hlkv hlkk hac
      have hx0 : x = x0 := by
        simp only [lookupStr, eq_self_iff_true, if_true] at hlkv
        rw [Option.some_inj] at hlkv
        exact hlkv.symm
      subst hx0
      have htl : ∀ p ∈ arest, ∃ x2, lookupStr p.1 vrest = some x2 ∧
          lookupStr p.1 kwargs = (if isPnone x2 && p.2.2 then none else some (canon x2)) ∧
          ((isPnone x2 && p.2.2) = false → attr_check p.2.1 p.2.2 (canon x2) = true) := by
        intro p hp
        obtain ⟨x2, hl1, hl2, hl3⟩ := h p (by simp [hp])
        have hpn : name ≠ p.1 := by
          intro he
          apply hnd.1
          rw [he]
          exact List.mem_map_of_mem Prod.fst hp
        rw [lookupStr, if_neg hpn] at hl1
        exact ⟨x2, hl1, hl2, hl3⟩
      by_cases hskip : (isPnone x && opt) = true
      · have hskip2 : isPnone x = true ∧ opt = true := by simpa using hskip
        have hopt : opt = true := hskip2.2
        have hxn : x = pnone := isPnone_eq hskip2.1
        simp only [hskip, eq_self_iff_true, if_true] at hlkk
        subst hopt
        simp only [initAttrs, hlkk]
        rw [ih hnd.2 hwrest htl]
        rw [exbind_ok]
        subst hxn
        simp [canonNamed, canon]
      · have hskipb : (isPnone x && opt) = false := by
          revert hskip
          cases (isPnone x && opt) <;> simp
        simp only [hskipb, Bool.false_eq_true, if_false] at hlkk
        simp only [initAttrs, hlkk]
        rw [if_pos (hac hskipb)]
        rw [ih hnd.2 hwrest htl]
        rw [exbind_ok]
        simp [canonNamed]

theorem serializeObj_chain
    {A : List (String × U × Bool)} {vals : List (String × U)} {sch : U}
    {sprops : List (U × U)}
    (hpr : schemaGet "properties" sch = some (pdict none 0 sprops))
    (hsprops : schemaProps A = .ok sprops) :
    ∀ {attrs : List (String × U × Bool)}, (attrs.map Prod.fst).Nodup →
      (∀ p ∈ attrs, ∃ x, lookupStr p.1 vals = some x ∧
        lookupAttr p.1 A = some (p.2.1, p.2.2) ∧
        ((isPnone x && p.2.2) = true ∨
          ∃ sx, serialize x = .ok sx ∧
            (∀ asch, schema p.2.1 = .ok asch → validate sx asch = true) ∧
            deserialize sx p.2.1 = .ok (canon x))) →
      ∃ props kwargs,
        serializeObj attrs vals = .ok props ∧
        deserializeKwargs props A = .ok kwargs ∧
        validateProps sch props = true ∧
        (∀ rn ∈ requiredNames attrs, dictHasKey rn (pdict none 0 props) = true) ∧
        (∀ q ∈ kwargs, q.1 ∈ attrs.map Prod.fst) ∧
        (∀ p ∈ attrs, ∃ x, lookupStr p.1 vals = some x ∧
          lookupStr p.1 kwargs = (if isPnone x && p.2.2 then none else some (canon x))) := by
  intro attrs
  induction attrs with
  | nil =>
    intro _ _
    refine ⟨[], [], by simp [serializeObj], by simp [deserializeKwargs],
      by simp [validateProps], ?_, by simp, by simp⟩
    intro rn hrn
    simp [requiredNames] at hrn
  | cons a arest ih =>
    intro hnd h
    obtain ⟨name, aty, opt⟩ := a
    obtain ⟨x, hlkv, hlkA, hcase⟩ := h (name, aty, opt) (by simp)
    simp only at hlkv hlkA hcase
    simp only [List.map_cons, List.nodup_cons] at hnd
    obtain ⟨props2, kwargs2, hserR, hdesR, hvalR, hreqR, hkeysR, hRR⟩ :=
      ih hnd.2 (fun p hp => h p (by simp [hp]))
    by_cases hskip : (isPnone x && opt) = true
    · have hopt : opt = true := by
        have hskip2 : isPnone x = true ∧ opt = true := by simpa using hskip
        exact hskip2.2
      have hserC : serializeObj ((name, aty, opt) :: arest) vals = serializeObj arest vals := by
        simp only [serializeObj]
        split
        · rename_i hnone
          rw [hlkv] at hnone
          cases hnone
        · rename_i v hsome
          rw [hlkv] at hsome
          rw [Option.some_inj] at hsome
          subst hsome
          rw [if_pos hskip]
      refine ⟨props2, kwargs2, by rw [hserC]; exact hserR, hdesR, hvalR, ?_, ?_, ?_⟩
      · subst hopt
        have hrq : requiredNames ((name, aty, true) :: arest) = requiredNames arest := by
          simp [requiredNames]
        rw [hrq]
        exact hreqR
      · intro q hq
        simp only [List.map_cons, List.mem_cons]
        exact Or.inr (hkeysR q hq)
      · intro p hp
        rcases List.mem_cons.mp hp with he | hm
        · subst he
          refine ⟨x, hlkv, ?_⟩
          have hnone : lookupStr name kwargs2 = none := by
            cases hl : lookupStr name kwargs2 with
            | none => rfl
            | some y =>
              exfalso
              have hmem := lookupStr_mem hl
              have h2 := hkeysR (name, y) hmem
              simp only at h2
              exact hnd.1 h2
          simp [hskip, hnone]
        · exact hRR p hm
    · have hskipb : (isPnone x && opt) = false := by
        revert hskip
        cases (isPnone x && opt) <;> simp
      rcases hcase with hsk | ⟨sx, hsx, hvx, hdx⟩
      · exact absurd hsk hskip
      · obtain ⟨asch, hascha, haschb⟩ := schemaProps_entGet_some hsprops hlkA
        have hserC : serializeObj ((name, aty, opt) :: arest) vals =
            .ok ((pstr name, sx) :: props2) := by
          simp only [serializeObj]
          split
          · rename_i hnone
            rw [hlkv] at hnone
            cases hnone
          · rename_i v hsome
            rw [hlkv] at hsome
            rw [Option.some_inj] at hsome
            subst hsome
            rw [if_neg hskip]
            rw [hsx, exbind_ok, hserR, exbind_ok]
        have hdesC : deserializeKwargs ((pstr name, sx) :: props2) A =
            .ok ((name, canon x) :: kwargs2) := by
          simp only [deserializeKwargs]
          split
          · rename_i hnone
            rw [hlkA] at hnone
            cases hnone
          · rename_i aty2 opt2 hsome
            rw [hlkA] at hsome
            rw [Option.some_inj] at hsome
            cases hsome
            rw [hdx, exbind_ok, hdesR, exbind_ok]
        have hpec : propEntryCheck sch (pstr name) sx = true := by
          simp only [propEntryCheck]
          split
          · rename_i props hprops2
            rw [hpr] at hprops2
            rw [Option.some_inj] at hprops2
            subst hprops2
            split
            · rename_i psch hpsch
              simp only [schemaGet] at hpsch
              rw [haschb] at hpsch
              rw [Option.some_inj] at hpsch
              subst hpsch
              exact hvx asch hascha
            · rename_i hpsch
              simp only [schemaGet] at hpsch
              rw [haschb] at hpsch
              cases hpsch
          · rename_i hprops2
            rw [hpr] at hprops2
            cases hprops2
        refine ⟨(pstr name, sx) :: props2, (name, canon x) :: kwargs2, hserC, hdesC, ?_, ?_, ?_, ?_⟩
        · simp only [validateProps, Bool.and_eq_true]
          exact ⟨hpec, hvalR⟩
        · intro rn hrn
          cases hop : opt with
          | true =>
            subst hop
            have hrq : requiredNames ((name, aty, true) :: arest) = requiredNames arest := by
              simp [requiredNames]
            rw [hrq] at hrn
            exact dictHasKey_cons (hreqR rn hrn)
          | false =>
            subst hop
            have hrq : requiredNames ((name, aty, false) :: arest) =
                name :: requiredNames arest := by
              simp [requiredNames]
            rw [hrq] at hrn
            rcases List.mem_cons.mp hrn with he | hm
            · subst he
              simp [dictHasKey]
            · exact dictHasKey_cons (hreqR rn hm)
        · intro q hq
          rcases List.mem_cons.mp hq with he | hm
          · subst he
            simp
          · simp only [List.map_cons, List.mem_cons]
            exact Or.inr (hkeysR q hm)
        · intro p hp
          rcases List.mem_cons.mp hp with he | hm
          · subst he
            refine ⟨x, hlkv, ?_⟩
            simp [hskipb, lookupStr]
          · obtain ⟨x2, hl1, hl2⟩ := hRR p hm
            refine ⟨x2, hl1, ?_⟩
            have hpn : name ≠ p.1 := by
              intro he
              apply hnd.1
              rw [he]
              exact List.mem_map_of_mem Prod.fst hm
            rw [lookupStr, if_neg hpn]
            exact hl2

theorem WellTypedList_mem {E x : U} :
    ∀ {es : List U}, WellTypedList E es = true → x ∈ es → WellTyped E x = true := by
  intro es
  induction es with
  | nil => intro _ hm; simp at hm
  | cons y rest ih =>
    intro h hm
    simp only [WellTypedList, Bool.and_eq_true] at h
    rcases List.mem_cons.mp hm with he | hm2
    · subst he
      exact h.1
    · exact ih h.2 hm2

theorem WellTypedVals_mem {E : U} {p : U × U} :
    ∀ {en : List (U × U)}, WellTypedVals E en = true → p ∈ en → WellTyped E p.2 = true := by
  intro en
  induction en with
  | nil => intro _ hm; simp at hm
  | cons q rest ih =>
    intro h hm
    obtain ⟨k, x⟩ := q
    simp only [WellTypedVals, Bool.and_eq_true] at h
    rcases List.mem_cons.mp hm with he | hm2
    · subst he
      exact h.1
    · exact ih h.2 hm2

theorem strNodupKeys_strVal {en : List (U × U)} (h : strNodupKeys en = true) :
    ∀ p ∈ en, isStrVal p.1 = true := by
  intro p hp
  simp only [strNodupKeys] at h
  split at h
  · rename_i ks hke
    have hfst := entryKeyStrs_eq hke
    have hmem : p.1 ∈ en.map Prod.fst := List.mem_map_of_mem Prod.fst hp
    rw [hfst] at hmem
    obtain ⟨k, _, hk2⟩ := List.mem_map.mp hmem
    rw [← hk2]
    simp [isStrVal]
  · cases h

theorem validate_int_schema (m : Int) :
    validate (pint m) (pdict none 0 [(pstr "type", pstr "number")]) = true := by
  simp [validate, checkTypeKw, schemaGet, entGet, checkRequiredKw]

theorem validate_float_schema (q : Rat) :
    validate (pfloat q) (pdict none 0 [(pstr "type", pstr "number")]) = true := by
  simp [validate, checkTypeKw, schemaGet, entGet, checkRequiredKw]

theorem validate_bool_schema (b : Bool) :
    validate (pbool b) (pdict none 0 [(pstr "type", pstr "boolean")]) = true := by
  simp [validate, checkTypeKw, schemaGet, entGet, checkRequiredKw]

theorem validate_str_schema (st : String) :
    validate (pstr st) (pdict none 0 [(pstr "type", pstr "string")]) = true := by
  simp [validate, checkTypeKw, schemaGet, entGet, checkRequiredKw]

theorem validate_array_schema {schE : U} {ss : List U} (h : validateAll schE ss = true) :
    validate (plist none 0 ss)
      (pdict none 0 [(pstr "type", pstr "array"), (pstr "items", schE)]) = true := by
  simp [validate, checkTypeKw, schemaGet, entGet, checkRequiredKw, h]

theorem validate_dict_schema {schE : U} {sen : List (U × U)}
    (h : validateProps
      (pdict none 0 [(pstr "type", pstr "object"), (pstr "additionalProperties", schE)])
      sen = true) :
    validate (pdict none 0 sen)
      (pdict none 0 [(pstr "type", pstr "object"), (pstr "additionalProperties", schE)]) = true := by
  simp [validate, checkTypeKw, schemaGet, entGet, checkRequiredKw, h]

theorem validate_obj_props {sch : U} {props : List (U × U)}
    (hty2 : schemaGet "type" sch = some (pstr "object"))
    (hitems : schemaGet "items" sch = none)
    (henum : schemaGet "enum" sch = none)
    (hvp : validateProps sch props = true)
    (hreq : checkRequiredKw (pdict none 0 props) sch = true) :
    validate (pdict none 0 props) sch = true := by
  simp only [validate]
  simp only [Bool.and_eq_true]
  refine ⟨⟨⟨⟨?_, ?_⟩, ?_⟩, hreq⟩, ?_⟩
  · simp [checkTypeKw, hty2]
  · split
    · rfl
    · rename_i isch h2
      rw [hitems] at h2
  · exact hvp
  · rw [henum]

theorem validate_enum_schema {lits : List U} {s : U} (hmem : s ∈ lits)
    (hjeq : jsEq s s = true) :
    validate s (pdict none 0 [(pstr "enum", plist none 0 lits)]) = true := by
  have hpr2 : schemaGet "properties" (pdict none 0 [(pstr "enum", plist none 0 lits)]) = none := by
    simp [schemaGet, entGet]
  have hap2 : schemaGet "additionalProperties"
      (pdict none 0 [(pstr "enum", plist none 0 lits)]) = none := by
    simp [schemaGet, entGet]
  have hanys : lits.any (fun lit => jsEq s lit) = true := by
    rw [List.any_eq_true]
    exact ⟨s, hmem, hjeq⟩
  cases s <;>
    simp [validate, checkTypeKw, checkRequiredKw, schemaGet, entGet,
      validateProps_trivial hpr2 hap2, hanys]
theorem WellTyped_of_opt_check {aty : U} {opt : Bool} {x : U}
    (hif : (if opt then isPnone x || WellTyped aty x else WellTyped aty x) = true)
    (hskipb : (isPnone x && opt) = false) : WellTyped aty x = true := by
  cases hop : opt with
  | false =>
    rw [hop] at hif
    simpa using hif
  | true =>
    rw [hop] at hif
    rw [hop] at hskipb
    simp only [Bool.and_true] at hskipb
    simp only [if_true, Bool.or_eq_true] at hif
    rcases hif with h1 | h1
    · rw [hskipb] at h1
      cases h1
    · exact h1

theorem roundtrip_main :
    ∀ (n : Nat) (v : U), sizeOf v ≤ n → ∀ (T : U),
      tyOK T = true → WellTyped T v = true →
      ∃ s, serialize v = .ok s ∧
        (∀ sch, schema T = .ok sch → validate s sch = true) ∧
        deserialize s T = .ok (canon v) := by
  intro n
  induction n with
  | zero =>
    intro v h
    exfalso
    have := sizeOf_pos v
    omega
  | succ n ih =>
    intro v hs T hok hw
    cases T with
    | tint =>
      cases v <;> try (simp [WellTyped] at hw; done)
      rename_i m
      refine ⟨pint m, by simp [serialize], ?_, by simp [deserialize, pyIntOf, canon]⟩
      intro sch hsch
      simp only [schema, Except.ok.injEq] at hsch
      subst hsch
      exact validate_int_schema m
    | tfloat =>
      cases v <;> try (simp [WellTyped] at hw; done)
      rename_i q
      refine ⟨pfloat q, by simp [serialize], ?_, by simp [deserialize, pyFloatOf, canon]⟩
      intro sch hsch
      simp only [schema, Except.ok.injEq] at hsch
      subst hsch
      exact validate_float_schema q
    | tbool =>
      cases v <;> try (simp [WellTyped] at hw; done)
      rename_i b
      refine ⟨pbool b, by simp [serialize], ?_, by simp [deserialize, truthy, canon]⟩
      intro sch hsch
      simp only [schema, Except.ok.injEq] at hsch
      subst hsch
      exact validate_bool_schema b
    | tstr =>
      cases v <;> try (simp [WellTyped] at hw; done)
      rename_i st
      refine ⟨pstr st, by simp [serialize], ?_, by simp [deserialize, pyStrOf, canon]⟩
      intro sch hsch
      simp only [schema, Except.ok.injEq] at hsch
      subst hsch
      exact validate_str_schema st
    | tlist E =>
      cases v <;> try (simp [WellTyped] at hw; done)
      rename_i o lvl es
      cases o with
      | none => simp [WellTyped] at hw
      | some E2 =>
        simp only [WellTyped, Bool.and_eq_true, decide_eq_true_eq] at hw
        obtain ⟨⟨hE, hne⟩, hwl⟩ := hw
        subst hE
        simp only [tyOK] at hok
        obtain ⟨schE, hschE⟩ := schema_isOk_of_tyOK (sizeOf E2) E2 le_rfl hok
        have hch : ∀ x ∈ es, ∃ sx, serialize x = .ok sx ∧ validate sx schE = true ∧
            deserialize sx E2 = .ok (canon x) ∧ check_type E2 (canon x) = true := by
          intro x hx
          have hwx : WellTyped E2 x = true := WellTypedList_mem hwl hx
          have hxn : sizeOf x ≤ n := by
            have := List.sizeOf_lt_of_mem hx
            simp at hs
            omega
          obtain ⟨sx, hsx, hvalx, hdx⟩ := ih x hxn E2 hok hwx
          refine ⟨sx, hsx, hvalx schE hschE, hdx, ?_⟩
          simp only [check_type]
          exact pyIsInstance_canon hne hwx
        obtain ⟨ss, hss, hvall, hdes, hall⟩ := deserializeList_chain hch
        have hschL : schema (tlist E2) =
            .ok (pdict none 0 [(pstr "type", pstr "array"), (pstr "items", schE)]) := by
          simp [schema, hschE, exbind_ok]
        have hvfull : validate (plist none 0 ss)
            (pdict none 0 [(pstr "type", pstr "array"), (pstr "items", schE)]) = true :=
          validate_array_schema hvall
        refine ⟨plist none 0 ss, by simp [serialize, hss, exbind_ok], ?_, ?_⟩
        · intro sch hsch
          rw [hschL] at hsch
          rw [Except.ok.injEq] at hsch
          subst hsch
          exact hvfull
        · simp only [deserialize]
          rw [hschL, exbind_ok, if_pos hvfull]
          simp only [hdes, exbind_ok]
          simp [List_init, hall, canon]
    | tdict E =>
      cases v <;> try (simp [WellTyped] at hw; done)
      rename_i o lvl en
      cases o with
      | none => simp [WellTyped] at hw
      | some E2 =>
        simp only [WellTyped, Bool.and_eq_true, decide_eq_true_eq] at hw
        obtain ⟨⟨⟨hE, hne⟩, hnk⟩, hwv⟩ := hw
        subst hE
        simp only [tyOK] at hok
        obtain ⟨schE, hschE⟩ := schema_isOk_of_tyOK (sizeOf E2) E2 le_rfl hok
        obtain ⟨aen, haen⟩ := schema_shape hschE
        have hprD : schemaGet "properties"
            (pdict none 0 [(pstr "type", pstr "object"),
              (pstr "additionalProperties", schE)]) = none := by
          simp [schemaGet, entGet]
        have hapD : schemaGet "additionalProperties"
            (pdict none 0 [(pstr "type", pstr "object"),
              (pstr "additionalProperties", schE)]) = some schE := by
          simp [schemaGet, entGet]
        have hch : ∀ p ∈ en, isStrVal p.1 = true ∧ ∃ sx, serialize p.2 = .ok sx ∧
            validate sx schE = true ∧ deserialize sx E2 = .ok (canon p.2) ∧
            check_type E2 (canon p.2) = true := by
          intro p hp
          refine ⟨strNodupKeys_strVal hnk p hp, ?_⟩
          obtain ⟨k, x⟩ := p
          have hwx : WellTyped E2 x = true := WellTypedVals_mem hwv hp
          have hxn : sizeOf x ≤ n := by
            have := List.sizeOf_lt_of_mem hp
            simp at hs this
            omega
          obtain ⟨sx, hsx, hvalx, hdx⟩ := ih x hxn E2 hok hwx
          refine ⟨sx, hsx, hvalx schE hschE, hdx, ?_⟩
          simp only [check_type]
          exact pyIsInstance_canon hne hwx
        obtain ⟨sen, hsen, hfst, hvp, hdd, hdc⟩ :=
          deserializeDictVals_chain hprD hapD haen hch
        have hschD : schema (tdict E2) =
            .ok (pdict none 0 [(pstr "type", pstr "object"),
              (pstr "additionalProperties", schE)]) := by
          simp [schema, hschE, exbind_ok]
        have hvfull : validate (pdict none 0 sen)
            (pdict none 0 [(pstr "type", pstr "object"),
              (pstr "additionalProperties", schE)]) = true :=
          validate_dict_schema hvp
        refine ⟨pdict none 0 sen, by simp [serialize, hsen, exbind_ok], ?_, ?_⟩
        · intro sch hsch
          rw [hschD] at hsch
          rw [Except.ok.injEq] at hsch
          subst hsch
          exact hvfull
        · simp only [deserialize]
          rw [hschD, exbind_ok, if_pos hvfull]
          simp only [hdd, exbind_ok]
          simp [Dict_init, hdc, exbind_ok, canon]
    | tobj nm attrs =>
      cases v <;> try (simp [WellTyped] at hw; done)
      rename_i ty vals
      simp only [WellTyped, Bool.and_eq_true, decide_eq_true_eq] at hw
      obtain ⟨⟨hty, hnodup⟩, hwa⟩ := hw
      subst hty
      simp only [tyOK] at hok
      obtain ⟨sch, hsch⟩ := schema_isOk_of_tyOK (sizeOf (tobj nm attrs)) (tobj nm attrs)
        le_rfl (by simp [tyOK, hok])
      obtain ⟨sprops, hsprops, hty2, hpr, hap, hrq⟩ := schema_tobj_shape hsch
      obtain ⟨henum, hitems⟩ := schema_tobj_extra hsch
      have hAch : ∀ p ∈ attrs, ∃ x, lookupStr p.1 vals = some x ∧
          lookupAttr p.1 attrs = some (p.2.1, p.2.2) ∧
          ((isPnone x && p.2.2) = true ∨ ∃ sx, serialize x = .ok sx ∧
            (∀ asch, schema p.2.1 = .ok asch → validate sx asch = true) ∧
            deserialize sx p.2.1 = .ok (canon x)) := by
        intro p hp
        obtain ⟨x, hlkv, hif, hneh⟩ := WellTypedAttrs_lookups hwa hnodup p hp
        refine ⟨x, hlkv, ?_, ?_⟩
        · obtain ⟨pn, pt, po⟩ := p
          exact lookupAttr_of_mem_nodup hnodup hp
        · by_cases hskip : (isPnone x && p.2.2) = true
          · exact Or.inl hskip
          · have hskipb : (isPnone x && p.2.2) = false := by
              revert hskip
              cases (isPnone x && p.2.2) <;> simp
            have hwx : WellTyped p.2.1 x = true := WellTyped_of_opt_check hif hskipb
            have hokt : tyOK p.2.1 = true := by
              obtain ⟨pn, pt, po⟩ := p
              exact tyOKAttrs_mem hok hp
            have hxn : sizeOf x ≤ n := by
              have := sizeOf_lookupStr hlkv
              simp at hs
              omega
            obtain ⟨sx, hsx, hvalx, hdx⟩ := ih x hxn p.2.1 hokt hwx
            exact Or.inr ⟨sx, hsx, hvalx, hdx⟩
      obtain ⟨props, kwargs, hserO, hdesO, hvalPO, hreqO, hkeysO, hRO⟩ :=
        serializeObj_chain hpr hsprops hnodup hAch
      have hreqK : checkRequiredKw (pdict none 0 props) sch = true := by
        simp only [checkRequiredKw]
        cases hreq : requiredNames attrs with
        | nil =>
          have hrq2 : schemaGet "required" sch = none := by
            rw [hrq, hreq]
          simp [hrq2]
        | cons r rs =>
          have hrq2 : schemaGet "required" sch =
              some (plist none 0 ((r :: rs).map pstr)) := by
            rw [hrq, hreq]
          simp only [hrq2]
          rw [List.all_eq_true]
          intro nm2 hnm
          obtain ⟨k, hk, he⟩ := List.mem_map.mp hnm
          subst he
          have hk2 : k ∈ requiredNames attrs := by
            rw [hreq]
            exact hk
          simpa using hreqO k hk2
      have hvfull : validate (pdict none 0 props) sch = true :=
        validate_obj_props hty2 hitems henum hvalPO hreqK
      have hinitH : ∀ p ∈ attrs, ∃ x, lookupStr p.1 vals = some x ∧
          lookupStr p.1 kwargs = (if isPnone x && p.2.2 then none else some (canon x)) ∧
          ((isPnone x && p.2.2) = false → attr_check p.2.1 p.2.2 (canon x) = true) := by
        intro p hp
        obtain ⟨x, hlkv, hlkk⟩ := hRO p hp
        refine ⟨x, hlkv, hlkk, ?_⟩
        intro hskipb
        obtain ⟨x2, hlkv2, hif, hneh⟩ := WellTypedAttrs_lookups hwa hnodup p hp
        rw [hlkv] at hlkv2
        rw [Option.some_inj] at hlkv2
        subst hlkv2
        have hwx : WellTyped p.2.1 x = true := WellTyped_of_opt_check hif hskipb
        have hinst := pyIsInstance_canon hneh hwx
        cases hop : p.2.2 <;> simp [attr_check, hop, hinst]
      have hinit : initAttrs attrs kwargs = .ok (canonNamed vals) :=
        initAttrs_round hnodup hwa hinitH
      have hunused : unusedKeys kwargs attrs = [] := unusedKeys_nil_of_sub hkeysO
      refine ⟨pdict none 0 props, by simp [serialize, hserO, exbind_ok], ?_, ?_⟩
      · intro sch2 hsch2
        rw [hsch] at hsch2
        rw [Except.ok.injEq] at hsch2
        subst hsch2
        exact hvfull
      · simp only [deserialize]
        rw [hsch, exbind_ok, if_pos hvfull]
        simp only [hdesO, exbind_ok]
        simp [object_init, hinit, exbind_ok, hunused, canon]
    | tenum nm members =>
      cases v <;> try (simp [WellTyped] at hw; done)
      rename_i ety mname mval
      simp only [WellTyped, Bool.and_eq_true, decide_eq_true_eq] at hw
      obtain ⟨⟨hety, hshape⟩, hlkm⟩ := hw
      subst hety
      have hmem : (mname, mval) ∈ members := lookupStr_mem hlkm
      simp only [enumShapeSafe, Bool.and_eq_true] at hshape
      have hsafe : enumValSafe mval = true := by
        have := List.all_eq_true.mp hshape.1.2 (mname, mval) hmem
        simpa using this
      obtain ⟨s, hs1, hpeq, hjeq, _⟩ := enumValSafe_facts (sizeOf mval) mval le_rfl hsafe
      simp only [tyOK] at hok
      have hall : ∀ p ∈ members, (serialize p.2).isOk = true := by
        intro p hp
        simpa using List.all_eq_true.mp hok p hp
      obtain ⟨lits, hl⟩ := serializeMemberVals_ok hall
      have hschE : schema (tenum nm members) =
          .ok (pdict none 0 [(pstr "enum", plist none 0 lits)]) := by
        simp [schema, hl, exbind_ok]
      have hmemlit : s ∈ lits := serializeMemberVals_mem hl hmem hs1
      have hvfull : validate s (pdict none 0 [(pstr "enum", plist none 0 lits)]) = true :=
        validate_enum_schema hmemlit hjeq
      have hcount : members.countP (fun q => pyEq q.2 s) = 1 := by
        have hd := List.all_eq_true.mp hshape.2 (mname, mval) hmem
        simp only at hd
        simp only [hs1] at hd
        simpa using hd
      refine ⟨s, by simp only [serialize]; exact hs1, ?_, ?_⟩
      · intro sch hsch
        rw [hschE] at hsch
        rw [Except.ok.injEq] at hsch
        subst hsch
        exact hvfull
      · simp only [deserialize]
        rw [hschE, exbind_ok, if_pos hvfull]
        rw [from_value_unique hcount hmem hpeq]
        simp [canon]
    | pnone => cases v <;> simp [WellTyped] at hw
    | pbool b => cases v <;> simp [WellTyped] at hw
    | pint m => cases v <;> simp [WellTyped] at hw
    | pfloat q => cases v <;> simp [WellTyped] at hw
    | pstr st => cases v <;> simp [WellTyped] at hw
    | plist o l es => cases v <;> simp [WellTyped] at hw
    | pdict o l en => cases v <;> simp [WellTyped] at hw
    | pobj ty vals => cases v <;> simp [WellTyped] at hw
    | pmember e nm2 x => cases v <;> simp [WellTyped] at hw

/-- C1 counterexample: the round-trip law fails for an enum member whose value
is an `Object` instance.  The declaration is accepted by the enum machinery
(`enumDeclOK`), the member serializes to the plain dict `{"x": 1}`, but
deserializing that dict back to the enum raises `ValueError`: validation
passes (the dict is literally among the schema literals), yet `from_value`
compares the raw dict against the stored `Object` member value with
`Object.__eq__`, which is type-strict, so no member matches and the code falls
into the `no matching value` error instead of returning the member. -/
theorem C1_roundtrip_counterexample :
    enumDeclOK [("foo", pobj (tobj "P" [("x", tint, false)]) [("x", pint 1)])] = true ∧
    serialize (pmember (tenum "E" [("foo", pobj (tobj "P" [("x", tint, false)]) [("x", pint 1)])])
        "foo" (pobj (tobj "P" [("x", tint, false)]) [("x", pint 1)])) =
      .ok (pdict none 0 [(pstr "x", pint 1)]) ∧
    deserialize (pdict none 0 [(pstr "x", pint 1)])
        (tenum "E" [("foo", pobj (tobj "P" [("x", tint, false)]) [("x", pint 1)])]) =
      .error .valueError := by
  have hserP : serialize (pobj (tobj "P" [("x", tint, false)]) [("x", pint 1)]) =
      .ok (pdict none 0 [(pstr "x", pint 1)]) := by
    simp [serialize, serializeObj, lookupStr, isPnone, exbind_ok]
  refine ⟨?_, ?_, ?_⟩
  · simp [enumDeclOK, hashableValsDistinct, isSerializableBaseInst, isSerializableInst,
      isSimpleInst, hashable]
  · simp [serialize, serializeObj, lookupStr, isPnone, exbind_ok]
  · have hsch : schema (tenum "E"
        [("foo", pobj (tobj "P" [("x", tint, false)]) [("x", pint 1)])]) =
        .ok (pdict none 0 [(pstr "enum",
          plist none 0 [pdict none 0 [(pstr "x", pint 1)]])]) := by
      simp [schema, serializeMemberVals, hserP, exbind_ok]
    have hval : validate (pdict none 0 [(pstr "x", pint 1)])
        (pdict none 0 [(pstr "enum",
          plist none 0 [pdict none 0 [(pstr "x", pint 1)]])]) = true := by
      refine validate_enum_schema (by simp) ?_
      simp [jsEq, jsEqList, jsDictSub, jsDictMem, asNum]
    have hfv : from_value (tenum "E"
        [("foo", pobj (tobj "P" [("x", tint, false)]) [("x", pint 1)])])
        (pdict none 0 [(pstr "x", pint 1)]) = .error .valueError := by
      simp [from_value, hashable, scanMembers, pyEq, asNum]
    simp only [deserialize]
    rw [hsch, exbind_ok, if_pos hval, hfv]

/-- C1 (amended): the round-trip law holds on the well-typed fragment.  For a
declared shape `T` whose schema raises nowhere (`tyOK`) and an instance `v`
well-typed at `T` (`WellTyped`: the constructors' own invariants, plus the
exclusion of the corners where deserialization provably departs — booleans at
`int` slots, enum-typed element slots, and enum shapes whose member values do
not survive `from_value`), `serialize` succeeds, deserializing the result back
to `T` succeeds, and the reconstructed instance compares `==`-equal to the
original. -/
theorem C1_roundtrip_amended (T v : U) (h1 : tyOK T = true) (h2 : WellTyped T v = true) :
    ∃ s w, serialize v = .ok s ∧ deserialize s T = .ok w ∧ pyEq w v = true := by
  obtain ⟨s, hs1, _, hdes⟩ := roundtrip_main (sizeOf v) v le_rfl T h1 h2
  exact ⟨s, canon v, hs1, hdes, pyEq_canon (sizeOf v) v le_rfl T h2⟩

/-- C1 witness: the spec's example shape (`integer: int` and `string: str`
required, `optional: str` optional, here with `optional` absent) round-trips:
serialization succeeds, deserializing the result reconstructs an instance, and
the result compares `==`-equal to the original. -/
theorem C1_roundtrip_amended_witness :
    tyOK (tobj "Foo" [("integer", tint, false), ("string", tstr, false),
      ("optional", tstr, true)]) = true ∧
    WellTyped (tobj "Foo" [("integer", tint, false), ("string", tstr, false),
      ("optional", tstr, true)])
      (pobj (tobj "Foo" [("integer", tint, false), ("string", tstr, false),
        ("optional", tstr, true)])
        [("integer", pint 1), ("string", pstr "foo"), ("optional", pnone)]) = true ∧
    (∃ s w,
      serialize (pobj (tobj "Foo" [("integer", tint, false), ("string", tstr, false),
        ("optional", tstr, true)])
        [("integer", pint 1), ("string", pstr "foo"), ("optional", pnone)]) = .ok s ∧
      deserialize s (tobj "Foo" [("integer", tint, false), ("string", tstr, false),
        ("optional", tstr, true)]) = .ok w ∧
      pyEq w (pobj (tobj "Foo" [("integer", tint, false), ("string", tstr, false),
        ("optional", tstr, true)])
        [("integer", pint 1), ("string", pstr "foo"), ("optional", pnone)]) = true) := by
  have h1 : tyOK (tobj "Foo" [("integer", tint, false), ("string", tstr, false),
      ("optional", tstr, true)]) = true := by
    simp [tyOK, tyOKAttrs]
  have h2 : WellTyped (tobj "Foo" [("integer", tint, false), ("string", tstr, false),
      ("optional", tstr, true)])
      (pobj (tobj "Foo" [("integer", tint, false), ("string", tstr, false),
        ("optional", tstr, true)])
        [("integer", pint 1), ("string", pstr "foo"), ("optional", pnone)]) = true := by
    simp [WellTyped, WellTypedAttrs, nonEnumHead, isPnone]
  exact ⟨h1, h2, C1_roundtrip_amended _ _ h1 h2⟩

end U
